import Mathlib

/-!
# A naive-Bayes post classifier (`main.cpp`)

A shallow embedding of the `Classifier` class of `main.cpp` and of the
driver around it, followed by theorems about training and prediction.

Modelling conventions.

* A `std::string` is a list of characters (`Str`); `operator<` on strings is
  `strLt`, the lexicographic comparison of character codes.
* An input stream is the list of characters not yet read; `getline` and
  `operator>>` return the piece read together with the rest of the stream.
* `std::map` and `std::set` are the ascending sequence of their entries,
  which is what iteration over them yields.
* The counters of the class are `double`s that only ever hold counts: they
  start at `0` and are changed by `++` alone.  Such a `double` is exact below
  `2^53`, so a counter is a `Nat` here, and it is handed to the floating-point
  operations through `Arith.ofCount`.  In the same way `vocab_size`, an `int`,
  is a `Nat` (the embedding describes runs with fewer than `2^31` words).
* The floating-point operations themselves (`/`, `log`, `+`, `>` and
  `numeric_limits<double>::lowest()`) are the fields of an `Arith` structure:
  the classifier is translated once, for every implementation of them.
  `exactArith` is the implementation by exact arithmetic.
* Text written to `cout` is not modelled, except for the lines `predict`
  prints per record and its final tally, which `predict` returns.
-/

namespace NaiveBayes

/-! ## Strings, streams, sets and maps -/

/-- The type of `std::string` values. -/
abbrev Str := List Char

/-- Lexicographic `operator<` of `std::string`. -/
def strLt : Str → Str → Bool
  | _, [] => false
  | [], _ :: _ => true
  | a :: as, b :: bs =>
    if a.toNat < b.toNat then true
    else if b.toNat < a.toNat then false
    else strLt as bs

/-- Lexicographic `operator<` of `std::pair<string, string>`. -/
def pairLt (a b : Str × Str) : Bool :=
  strLt a.1 b.1 || (!strLt b.1 a.1 && strLt a.2 b.2)

/-- The characters `isspace` accepts in the "C" locale, the ones `operator>>`
skips and stops at. -/
def isspace (c : Char) : Bool :=
  c == ' ' || c == '\t' || c == '\n' || c == '\x0b' || c == '\x0c' || c == '\r'

/-- One call `getline(is, line, delim)` on a stream whose unread part is `is`:
it fails on an exhausted stream, and otherwise reads up to the first `delim`
(or to the end), discarding that `delim`.  Returns the line and the rest. -/
def getline (delim : Char) (is : Str) : Option (Str × Str) :=
  match is with
  | [] => none
  | _ :: _ => some (is.takeWhile (· != delim), (is.dropWhile (· != delim)).drop 1)

/-- The lines read by `while (getline(is, line, delim))`, at most `fuel` of
them. -/
def readAll (delim : Char) : Nat → Str → List Str
  | 0, _ => []
  | fuel + 1, is =>
    match getline delim is with
    | none => []
    | some (line, rest) => line :: readAll delim fuel rest

/-- The lines read by `while (getline(is, line, delim))` until `getline`
fails.  Every successful call consumes a character, so `is.length` calls
are enough (`readAll_fuel`). -/
def getlines (delim : Char) (is : Str) : List Str :=
  readAll delim is.length is

/-- One extraction `source >> word`: skip leading whitespace, fail if nothing
is left, otherwise read up to the next whitespace character. -/
def extract (is : Str) : Option (Str × Str) :=
  match is.dropWhile isspace with
  | [] => none
  | c :: cs =>
    some ((c :: cs).takeWhile (fun x => !isspace x), (c :: cs).dropWhile (fun x => !isspace x))

/-- The words an `istream_iterator<string>` yields, at most `fuel` of them. -/
def extractAll : Nat → Str → List Str
  | 0, _ => []
  | fuel + 1, is =>
    match extract is with
    | none => []
    | some (word, rest) => word :: extractAll fuel rest

/-- Insertion into a `std::set<string>`. -/
def setInsert : List Str → Str → List Str
  | [], w => [w]
  | x :: xs, w =>
    if w = x then x :: xs
    else if strLt w x then w :: x :: xs
    else x :: setInsert xs w

/-- Returns a set containing the unique "words" in the original string,
delimited by whitespace: the set built from the range of an
`istream_iterator<string>` over the string. -/
def unique_words (str : Str) : List Str :=
  (extractAll str.length str).foldl setInsert []

/-- Access `m[k]` to a `std::map` followed by the update `f` of the entry:
an absent key is first inserted, at its place in the key order, with value
`0`. -/
def mapUpd {K : Type} [DecidableEq K] (lt : K → K → Bool) (f : Nat → Nat) :
    List (K × Nat) → K → List (K × Nat)
  | [], k => [(k, f 0)]
  | (k0, v0) :: rest, k =>
    if k = k0 then (k0, f v0) :: rest
    else if lt k k0 then (k, f 0) :: (k0, v0) :: rest
    else (k0, v0) :: mapUpd lt f rest k

/-- The value read by `m[k]`: `0` for a key that was absent. -/
def mapGet {K : Type} [DecidableEq K] : List (K × Nat) → K → Nat
  | [], _ => 0
  | (k0, v0) :: rest, k => if k = k0 then v0 else mapGet rest k

/-- The map after a read `m[k]`: an absent key has been inserted with `0`. -/
def mapTouch {K : Type} [DecidableEq K] (lt : K → K → Bool) (m : List (K × Nat)) (k : K) :
    List (K × Nat) :=
  mapUpd lt id m k

/-- The map after `++m[k]`. -/
def mapIncr {K : Type} [DecidableEq K] (lt : K → K → Bool) (m : List (K × Nat)) (k : K) :
    List (K × Nat) :=
  mapUpd lt (· + 1) m k


/-! ## Floating-point operations -/

/-- The operations on `double` that the classifier uses. -/
structure Arith (F : Type) where
  /-- The `double` holding a count (also the conversion of the literals `0`
  and `1`). -/
  ofCount : Nat → F
  /-- Division `x / y`. -/
  div : F → F → F
  /-- The function `log` of `<cmath>`. -/
  log : F → F
  /-- Addition `x + y`. -/
  add : F → F → F
  /-- Comparison `x > y`. -/
  gt : F → F → Bool
  /-- The constant `numeric_limits<double>::lowest()`. -/
  lowest : F

/-! ## The classifier -/

/-- The fields of the class `Classifier`. -/
structure Classifier where
  /-- Whether or not to display debug output. -/
  debug : Bool
  /-- Total number of posts. -/
  total_posts : Nat
  /-- Number of unique words. -/
  vocab_size : Nat
  /-- Column that contains labels. -/
  label_col : Int
  /-- Column that contains content. -/
  content_col : Int
  /-- Number of posts that contain a word. -/
  words_posts : List (Str × Nat)
  /-- Number of posts that contain a label. -/
  labels_posts : List (Str × Nat)
  /-- Number of posts that contain a label with a certain word. -/
  words_labels_posts : List ((Str × Str) × Nat)
  /-- The correct label for test content. -/
  c_label : Str
  /-- The predicted label for test content. -/
  prediction : Str
deriving DecidableEq

/-- The constructor `Classifier()`. -/
def Classifier.init : Classifier where
  debug := false
  total_posts := 0
  vocab_size := 0
  label_col := 0
  content_col := -1
  words_posts := []
  labels_posts := []
  words_labels_posts := []
  c_label := []
  prediction := []

/-- Sets the debug variable to true. -/
def debug_true (c : Classifier) : Classifier :=
  { c with debug := true }

/-- The body of the header loop, run on the fields of the header from the
one numbered `count` on: a field equal to "tag" sets `label_col`, one equal
to "content" sets `content_col`. -/
def colsLoop : List Str → Nat → Classifier → Classifier
  | [], _, c => c
  | line :: rest, count, c =>
    let c1 := if line = "tag".toList then { c with label_col := (count : Int) } else c
    let c2 := if line = "content".toList then { c1 with content_col := (count : Int) } else c1
    colsLoop rest (count + 1) c2

/-- Reads through firstline and stores which column contains the tags and
which contains the content. -/
def get_cols (firstline : Str) (c : Classifier) : Classifier :=
  colsLoop (getlines ',' firstline) 0 c

/-- If the passed in parameter (the number of times a word has been saved)
is 1, increment `vocab_size`. -/
def increment_vocab (size : Nat) (c : Classifier) : Classifier :=
  if size = 1 then { c with vocab_size := c.vocab_size + 1 } else c

/-- The body of `for (auto it : words)` in `train`.  The read
`words_posts[it]` passed to `increment_vocab` follows `++words_posts[it]`,
so its key is present and the read inserts nothing. -/
def trainWord (label : Str) (c : Classifier) (it : Str) : Classifier :=
  let c1 := { c with words_posts := mapIncr strLt c.words_posts it }
  let c2 := increment_vocab (mapGet c1.words_posts it) c1
  { c2 with words_labels_posts := mapIncr pairLt c2.words_labels_posts (label, it) }

/-- The inner loop of `train` over the comma-separated fields of one line,
from the field numbered `count` on; `label` is the local variable of that
name. -/
def trainFields : List Str → Nat → Str → Classifier → Classifier
  | [], _, _, c => c
  | line :: rest, count, label, c =>
    let isLabel : Bool := decide ((count : Int) = c.label_col)
    let label1 := if isLabel then line else label
    let c1 := if isLabel then { c with labels_posts := mapIncr strLt c.labels_posts line } else c
    let c2 :=
      if (count : Int) = c1.content_col then (unique_words line).foldl (trainWord label1) c1
      else c1
    trainFields rest (count + 1) label1 c2

/-- The body of the outer loop of `train`, for one line of the file. -/
def trainRow (c : Classifier) (line : Str) : Classifier :=
  let c1 := trainFields (getlines ',' line) 0 [] c
  { c1 with total_posts := c1.total_posts + 1 }

/-- The first line of a file and the rest of the stream; an empty file has
an empty first line. -/
def readHeader (is : Str) : Str × Str :=
  match getline '\n' is with
  | none => ([], [])
  | some p => p

/-- Trains the machine: calls `get_cols` on the first line, then scans
through the file line by line, adding labels, words and combinations to the
maps. -/
def train (is : Str) (c : Classifier) : Classifier :=
  let h := readHeader is
  (getlines '\n' h.2).foldl trainRow (get_cols h.1 c)

/-- Returns the log-prior probability of label, with the classifier after the
read `labels_posts[label]`. -/
def calc_log_prior {F : Type} (A : Arith F) (label : Str) (c : Classifier) : F × Classifier :=
  (A.log (A.div (A.ofCount (mapGet c.labels_posts label)) (A.ofCount c.total_posts)),
   { c with labels_posts := mapTouch strLt c.labels_posts label })

/-- Returns the log-likelihood of a word occurring given the label, with the
classifier after the map reads made on the way. -/
def calc_log_likelihood {F : Type} (A : Arith F) (label word : Str) (c : Classifier) :
    F × Classifier :=
  let c1 := { c with words_posts := mapTouch strLt c.words_posts word }
  if mapGet c.words_posts word = 0 then
    (A.log (A.div (A.ofCount 1) (A.ofCount c.total_posts)), c1)
  else
    let c2 := { c1 with words_labels_posts := mapTouch pairLt c1.words_labels_posts (label, word) }
    if mapGet c.words_labels_posts (label, word) = 0 then
      (A.log (A.div (A.ofCount (mapGet c.words_posts word)) (A.ofCount c.total_posts)), c2)
    else
      (A.log (A.div (A.ofCount (mapGet c.words_labels_posts (label, word)))
          (A.ofCount (mapGet c.labels_posts label))),
       { c2 with labels_posts := mapTouch strLt c2.labels_posts label })

/-- The body of `for (auto it : labels_posts)` in `map_priors`: the read
`labels_posts[it.first]` and the call of `calc_log_prior`, whose values are
only printed. -/
def priorsLoop {F : Type} (A : Arith F) : List (Str × Nat) → Classifier → Classifier
  | [], c => c
  | it :: rest, c =>
    let c1 := { c with labels_posts := mapTouch strLt c.labels_posts it.1 }
    priorsLoop A rest (calc_log_prior A it.1 c1).2

/-- If debug is true, lists the classes in the training data, the number of
examples for each, and their log-prior probabilities. -/
def map_priors {F : Type} (A : Arith F) (c : Classifier) : Classifier :=
  if c.debug then priorsLoop A c.labels_posts c else c

/-- The body of `for (auto it : words_labels_posts)` in `map_log_likelihood`:
the call of `calc_log_likelihood`, whose value is only printed. -/
def likelihoodLoop {F : Type} (A : Arith F) : List ((Str × Str) × Nat) → Classifier → Classifier
  | [], c => c
  | it :: rest, c => likelihoodLoop A rest (calc_log_likelihood A it.1.1 it.1.2 c).2

/-- If debug is true, lists for each label and each word that occurs for that
label the number of posts and the log-likelihood of the word given the
label. -/
def map_log_likelihood {F : Type} (A : Arith F) (c : Classifier) : Classifier :=
  if c.debug then likelihoodLoop A c.words_labels_posts c else c

/-- The body of `for (auto it2 : words)` in `find_probability`: adds the
log-likelihood of each word-label pair to `probability`. -/
def addWords {F : Type} (A : Arith F) (label : Str) : List Str → F → Classifier → F × Classifier
  | [], probability, c => (probability, c)
  | it2 :: rest, probability, c =>
    let r := calc_log_likelihood A label it2 c
    addWords A label rest (A.add probability r.1) r.2

/-- The value of `probability` for one label when the comparison with `max`
is made: `0`, plus the log-prior, plus the log-likelihood of every word. -/
def labelScore {F : Type} (A : Arith F) (label : Str) (words : List Str) (c : Classifier) :
    F × Classifier :=
  let r := calc_log_prior A label c
  addWords A label words (A.add (A.ofCount 0) r.1) r.2

/-- The body of `for (auto it1 : labels_posts)` in `find_probability`, run
over the entries of the map: a label whose probability is the highest so far
becomes the prediction.  (The calls made in the loop read `labels_posts`
only at keys it already has, so the entries iterated over do not change.) -/
def scoreLabels {F : Type} (A : Arith F) (words : List Str) :
    List (Str × Nat) → F → Classifier → F × Classifier
  | [], max, c => (max, c)
  | it1 :: rest, max, c =>
    let r := labelScore A it1.1 words c
    if A.gt r.1 max then scoreLabels A words rest r.1 { r.2 with prediction := it1.1 }
    else scoreLabels A words rest max r.2

/-- The values `find_probability` leaves behind: what it printed, its
reference parameters `temp` and `max`, and the classifier. -/
structure Found (F : Type) where
  /-- The label printed after "correct = ", when one was printed. -/
  printed : Option Str
  /-- The content that led to the prediction. -/
  temp : Str
  /-- The highest probability so far. -/
  max : F
  /-- The classifier. -/
  c : Classifier

/-- The call `find_probability(count, line, temp, max)`: stores and prints
the actual label when the field `line` is in the label column, and when it
is in the content column stores the content as a set of unique words and
scores it against every label, saving the label that has the highest
probability. -/
def find_probability {F : Type} (A : Arith F) (count : Nat) (line temp : Str) (max : F)
    (c : Classifier) : Found F :=
  let isLabel : Bool := decide ((count : Int) = c.label_col)
  let c1 := if isLabel then { c with c_label := line } else c
  let printed := if isLabel then some line else none
  if (count : Int) = c1.content_col then
    let r := scoreLabels A (unique_words line) c1.labels_posts max c1
    { printed := printed, temp := line, max := r.1, c := r.2 }
  else { printed := printed, temp := temp, max := max, c := c1 }

/-- The inner loop of `predict` over the fields of one line, from the field
numbered `count` on; the argument holds `temp`, `max` and the classifier
before the loop, and what the record has printed after "correct = " so
far.  Returns the final `count` with the same after the loop. -/
def predictFields {F : Type} (A : Arith F) :
    List Str → Nat → Found F → Nat × Found F
  | [], count, s => (count, s)
  | line :: rest, count, s =>
    let r := find_probability A count line s.temp s.max s.c
    predictFields A rest (count + 1) { r with printed := r.printed.orElse (fun _ => s.printed) }

/-- The special case of `predict`: the loop over `labels_posts` that keeps the
label whose log-prior is greater than `max`. -/
def priorLabels {F : Type} (A : Arith F) : List (Str × Nat) → F → Classifier → F × Classifier
  | [], max, c => (max, c)
  | it :: rest, max, c =>
    let r := calc_log_prior A it.1 c
    if A.gt r.1 max then
      let r1 := calc_log_prior A it.1 r.2
      priorLabels A rest r1.1 { r1.2 with prediction := it.1 }
    else priorLabels A rest max r.2

/-- What `predict` prints for one record, and whether it counted the record
as predicted correctly. -/
structure Emitted (F : Type) where
  /-- The label printed after "correct = ", when one was printed. -/
  correct : Option Str
  /-- The label printed after "predicted = ". -/
  predicted : Str
  /-- The number printed after "log-probability score = ". -/
  score : F
  /-- The text printed after "content = ". -/
  content : Str
  /-- Whether `prediction == c_label` held, so that `correct` was
  incremented. -/
  hit : Bool

/-- The body of the outer loop of `predict`, for one line of the file. -/
def predictRow {F : Type} (A : Arith F) (c : Classifier) (line : Str) : Emitted F × Classifier :=
  let r := predictFields A (getlines ',' line) 0
    { printed := none, temp := [], max := A.lowest, c := c }
  let r1 := if r.1 = 1 then priorLabels A r.2.c.labels_posts r.2.max r.2.c else (r.2.max, r.2.c)
  ({ correct := r.2.printed
     predicted := r1.2.prediction
     score := r1.1
     content := r.2.temp
     hit := decide (r1.2.prediction = r1.2.c_label) }, r1.2)

/-- The outer loop of `predict` over the lines of the file: the records
printed so far, in order, and the classifier. -/
def predictRows {F : Type} (A : Arith F) :
    List Str → Classifier → List (Emitted F) × Classifier
  | [], c => ([], c)
  | line :: rest, c =>
    let r := predictRow A c line
    let rs := predictRows A rest r.2
    (r.1 :: rs.1, rs.2)

/-- What `predict` prints: one entry per record, and the final performance
line "correct / total posts predicted correctly". -/
structure Report (F : Type) where
  /-- The records, in the order of the file. -/
  records : List (Emitted F)
  /-- The number printed as correct. -/
  correct : Nat
  /-- The number printed as total. -/
  total : Nat

/-- Reads through the testing file line by line and finds the most likely
label based on the content using `find_probability`; returns what was
printed, and the classifier afterwards. -/
def predict {F : Type} (A : Arith F) (is : Str) (c : Classifier) : Report F × Classifier :=
  let h := readHeader is
  let c1 := colsLoop (getlines ',' h.1) 0 c
  let r := predictRows A (getlines '\n' h.2) c1
  ({ records := r.1
     correct := (r.1.filter (fun e => e.hit)).length
     total := r.1.length }, r.2)

/-! ## The driver -/

/-- Checks that the user inputs appropriate arguments: `true` when they are
not.  `argv` holds the `argc` arguments, the program name first. -/
def check_args (argv : List Str) : Bool :=
  if argv.length ≠ 3 ∧ argv.length ≠ 4 then true
  else if argv.length = 4 ∧ argv.getD 3 [] ≠ "--debug".toList then true
  else false

/-- Checks that the user inputted files that can be opened: `true` when one
cannot.  `fs` gives the content of every file that can be opened for
reading.  Also returns the names of the files it tried to open. -/
def check_files (fs : Str → Option Str) (argv : List Str) : Bool × List Str :=
  match fs (argv.getD 1 []) with
  | none => (true, [argv.getD 1 []])
  | some _ =>
    match fs (argv.getD 2 []) with
    | none => (true, [argv.getD 1 [], argv.getD 2 []])
    | some _ => (false, [argv.getD 1 [], argv.getD 2 []])

/-- The outcome of a run of the program. -/
structure Run (F : Type) where
  /-- The exit code. -/
  code : Nat
  /-- The names of the files the run tried to open, in order. -/
  opened : List Str
  /-- What `predict` printed, when the run got that far. -/
  report : Option (Report F)

/-- The driver. -/
def main {F : Type} (A : Arith F) (fs : Str → Option Str) (argv : List Str) : Run F :=
  if check_args argv then { code := 1, opened := [], report := none }
  else
    let r := check_files fs argv
    if r.1 then { code := 2, opened := r.2, report := none }
    else
      let c := if argv.length = 4 then debug_true Classifier.init else Classifier.init
      let c1 := train ((fs (argv.getD 1 [])).getD []) c
      let c2 := map_log_likelihood A (map_priors A c1)
      let p := predict A ((fs (argv.getD 2 [])).getD []) c2
      { code := 0, opened := r.2 ++ [argv.getD 1 [], argv.getD 2 []], report := some p.1 }

/-! ## Exact arithmetic -/

/-- The values of the `double` expressions of the classifier, computed
exactly.  The classifier divides counts, takes the logarithm of such a
quotient, adds logarithms to `0` and compares the sums; a logarithm is kept
as the fraction it is the logarithm of, so that a sum of logarithms is the
logarithm of a product and is compared through it. -/
inductive Exact where
  /-- The fraction `n / d` of two counts, `d` not `0`. -/
  | num (n d : Nat)
  /-- The logarithm of the fraction `n / d`, neither `n` nor `d` being `0`. -/
  | ln (n d : Nat)
  /-- The constant `numeric_limits<double>::lowest()`. -/
  | lowest
  /-- Positive infinity: the quotient of a positive count by `0`, and its
  logarithm. -/
  | posInf
  /-- Negative infinity: the logarithm of `0`. -/
  | negInf
  /-- Not a number: `0 / 0`, and what the operations return on values the
  classifier never hands them. -/
  | nan
deriving DecidableEq

/-- Exact division. -/
def Exact.div : Exact → Exact → Exact
  | .num a b, .num c d =>
    if c = 0 then (if a = 0 then .nan else .posInf) else .num (a * d) (b * c)
  | _, _ => .nan

/-- Exact logarithm. -/
def Exact.log : Exact → Exact
  | .num a b => if a = 0 then .negInf else .ln a b
  | .posInf => .posInf
  | _ => .nan

/-- Exact addition: `0 + x = x`, and `log p + log q = log (p * q)`. -/
def Exact.add : Exact → Exact → Exact
  | .num a b, .num c d => .num (a * d + c * b) (b * d)
  | .num a _, .ln c d => if a = 0 then .ln c d else .nan
  | .ln a b, .num c _ => if c = 0 then .ln a b else .nan
  | .ln a b, .ln c d => .ln (a * c) (b * d)
  | .num a _, .posInf => if a = 0 then .posInf else .nan
  | .num a _, .negInf => if a = 0 then .negInf else .nan
  | .ln _ _, .posInf => .posInf
  | .ln _ _, .negInf => .negInf
  | .posInf, .ln _ _ => .posInf
  | .negInf, .ln _ _ => .negInf
  | .posInf, .posInf => .posInf
  | .negInf, .negInf => .negInf
  | _, _ => .nan

/-- Exact comparison `x > y`: fractions are compared with fractions and
logarithms with logarithms, through their fractions; every fraction and
every logarithm is above `lowest()`, which is above negative infinity, and
nothing compares with `nan`.  (A fraction and a logarithm are never compared
by the classifier; the answer is `false` here.) -/
def Exact.gt : Exact → Exact → Bool
  | .num a b, .num c d => decide (c * b < a * d)
  | .ln a b, .ln c d => decide (c * b < a * d)
  | .num _ _, .lowest => true
  | .num _ _, .negInf => true
  | .ln _ _, .lowest => true
  | .ln _ _, .negInf => true
  | .posInf, .num _ _ => true
  | .lowest, .negInf => true
  | .posInf, .ln _ _ => true
  | .posInf, .lowest => true
  | .posInf, .negInf => true
  | _, _ => false

/-- The operations on `double`, carried out exactly. -/
def exactArith : Arith Exact where
  ofCount n := .num n 1
  div := Exact.div
  log := Exact.log
  add := Exact.add
  gt := Exact.gt
  lowest := .lowest

/-! ## Notions used in the statements -/

/-- The map entries `m` are in strictly ascending key order. -/
def Ascending {K : Type} (lt : K → K → Bool) (m : List (K × Nat)) : Prop :=
  m.Pairwise (fun a b => lt a.1 b.1 = true)

/-- The comparison `lt` is a strict total order. -/
structure StrictTotal {K : Type} (lt : K → K → Bool) : Prop where
  /-- No key is below itself. -/
  irrefl : ∀ a, lt a a = false
  /-- The comparison is transitive. -/
  trans : ∀ {a b c}, lt a b = true → lt b c = true → lt a c = true
  /-- Two different keys are comparable. -/
  total : ∀ {a b}, a ≠ b → lt a b = true ∨ lt b a = true

/-- The data rows of a file: all its lines after the header line. -/
def dataRows (file : Str) : List Str :=
  (getlines '\n' file).drop 1

/-- The shape every classifier has during and after training: the three
maps are in ascending key order and hold no zero entry, and `vocab_size` is
the number of entries of `words_posts`. -/
structure Wf (c : Classifier) : Prop where
  /-- The keys of `words_posts` ascend. -/
  words_asc : Ascending strLt c.words_posts
  /-- The keys of `labels_posts` ascend. -/
  labels_asc : Ascending strLt c.labels_posts
  /-- The keys of `words_labels_posts` ascend. -/
  pairs_asc : Ascending pairLt c.words_labels_posts
  /-- Every word present has been counted at least once. -/
  words_pos : ∀ e ∈ c.words_posts, 1 ≤ e.2
  /-- Every label present has been counted at least once. -/
  labels_pos : ∀ e ∈ c.labels_posts, 1 ≤ e.2
  /-- Every pair present has been counted at least once. -/
  pairs_pos : ∀ e ∈ c.words_labels_posts, 1 ≤ e.2
  /-- The vocabulary size is the number of words present. -/
  vocab : c.vocab_size = c.words_posts.length

/-- The field of a row in the column numbered `col`, if the row has one. -/
def fieldAt (col : Int) (row : Str) : Option Str :=
  if 0 ≤ col then (getlines ',' row).get? col.toNat else none

/-- The row has a field in the column numbered `col`, and `w` is one of the
words of that field. -/
def rowHasWord (col : Int) (w : Str) (row : Str) : Bool :=
  match fieldAt col row with
  | some f => decide (w ∈ unique_words f)
  | none => false

/-- The content column a new classifier finds in the header of a file. -/
def contentCol (file : Str) : Int :=
  (get_cols (readHeader file).1 Classifier.init).content_col

/-- The label column a new classifier finds in the header of a file. -/
def labelCol (file : Str) : Int :=
  (get_cols (readHeader file).1 Classifier.init).label_col

/-- The string `w` is a maximal non-empty run of non-whitespace characters
of `s`: it is not empty, holds no whitespace, and occurs in `s` with
whitespace or an end of `s` on either side. -/
def IsRun (w s : Str) : Prop :=
  w ≠ [] ∧ (∀ c ∈ w, isspace c = false) ∧
  ∃ pre post : Str, s = pre ++ w ++ post ∧
    (∀ c, pre.getLast? = some c → isspace c = true) ∧
    (∀ c, post.head? = some c → isspace c = true)

/-! ## The files of the scenarios -/

/-- The training file of the end-to-end scenario. -/
def scenarioTrain : Str :=
  "tag,content\nsports,go team go\nnews,breaking news today\n".toList

/-- A test file for the end-to-end scenario: two records with the content
"go team", one tagged sports and one tagged news. -/
def scenarioTest : Str :=
  "tag,content\nsports,go team\nnews,go team\n".toList

/-- A test file whose content column comes first, with one record whose
content is "go zzz" and whose tag is empty. -/
def contentFirstTest : Str :=
  "content,tag\ngo zzz,\n".toList

/-- A training file with two posts for each of the labels a and b, all four
holding the word x, and three posts for the label c, holding the word y. -/
def tieTrain : Str :=
  "tag,content\na,x\na,x\nb,x\nb,x\nc,y\nc,y\nc,y\n".toList

/-- A test file whose content column comes first, with one record whose
content is "x" and whose tag is empty. -/
def tieTest : Str :=
  "content,tag\nx,\n".toList

/-- A test file whose content column comes first, with two records whose
content is "go team", one with an empty tag and one tagged news. -/
def scenarioTestContentFirst : Str :=
  "content,tag\ngo team,\ngo team,news\n".toList

/-- The training file of the end-to-end scenario with its two columns
exchanged. -/
def contentFirstTrain : Str :=
  "content,tag\ngo team go,sports\nbreaking news today,news\n".toList

/-! ## Notions used in the statements about prediction -/

/-- The three maps of the classifier are in ascending key order. -/
structure Sorted (c : Classifier) : Prop where
  /-- The keys of `words_posts` ascend. -/
  words_asc : Ascending strLt c.words_posts
  /-- The keys of `labels_posts` ascend. -/
  labels_asc : Ascending strLt c.labels_posts
  /-- The keys of `words_labels_posts` ascend. -/
  pairs_asc : Ascending pairLt c.words_labels_posts

/-- The classifier `c'` differs from `c` by map reads at most, and by the
fields `c_label` and `prediction`: it has the same total, the same columns,
the same entries of `labels_posts`, and the same count at every key of
`words_posts` and `words_labels_posts`, whose keys still ascend. -/
structure Reads (c c' : Classifier) : Prop where
  /-- The total is the same. -/
  total : c'.total_posts = c.total_posts
  /-- The vocabulary size is the same. -/
  vocab : c'.vocab_size = c.vocab_size
  /-- The debug flag is the same. -/
  debug : c'.debug = c.debug
  /-- The label column is the same. -/
  label_col : c'.label_col = c.label_col
  /-- The content column is the same. -/
  content_col : c'.content_col = c.content_col
  /-- The entries of `labels_posts` are the same. -/
  labels : c'.labels_posts = c.labels_posts
  /-- Every word has the same count. -/
  words : ∀ w, mapGet c'.words_posts w = mapGet c.words_posts w
  /-- Every pair has the same count. -/
  pairs : ∀ p, mapGet c'.words_labels_posts p = mapGet c.words_labels_posts p
  /-- The keys of the maps still ascend. -/
  sorted : Sorted c'

/-- The total log-probability of a label for a set of words, as
`find_probability` accumulates it in `probability`: `0`, plus the log-prior,
plus the log-likelihood of each word in turn, all computed from the counts
of `c`. -/
def totalScore {F : Type} (A : Arith F) (c : Classifier) (label : Str) (words : List Str) : F :=
  words.foldl (fun p w => A.add p (calc_log_likelihood A label w c).1)
    (A.add (A.ofCount 0) (calc_log_prior A label c).1)

/-- The running maximum kept by the loops over the labels: starting from the
pair `best` of a score and a label, each label in turn replaces the pair when
its score is greater than the score kept. -/
def pick {F : Type} (gt : F → F → Bool) : List (Str × F) → F × Str → F × Str
  | [], best => best
  | (l, s) :: rest, best => if gt s best.1 then pick gt rest (s, l) else pick gt rest best

/-- The field numbered `col` among `fields`, the first of which is numbered
`count`. -/
def fieldFrom (fields : List Str) (count : Nat) (col : Int) : Option Str :=
  if (count : Int) ≤ col then fields.get? (col - count).toNat else none

/-- The labels of the classifier, each with its total log-probability for
the words of `content`, in the order of `labels_posts`. -/
def labelScores {F : Type} (A : Arith F) (c : Classifier) (content : Str) : List (Str × F) :=
  c.labels_posts.map (fun e => (e.1, totalScore A c e.1 (unique_words content)))

/-- The labels of the classifier, each with its log-prior, in the order of
`labels_posts`. -/
def labelPriors {F : Type} (A : Arith F) (c : Classifier) : List (Str × F) :=
  c.labels_posts.map (fun e => (e.1, (calc_log_prior A e.1 c).1))

/-- The comparison `gt` orders the values `vs` as `>` orders numbers: it is
transitive on them, and so is its negation (as for all `double`s that are
not NaN). -/
structure WeakOrderOn {F : Type} (gt : F → F → Bool) (vs : List F) : Prop where
  /-- The comparison is transitive. -/
  trans : ∀ a ∈ vs, ∀ b ∈ vs, ∀ c ∈ vs, gt a b = true → gt b c = true → gt a c = true
  /-- The negation of the comparison is transitive. -/
  negtrans : ∀ a ∈ vs, ∀ b ∈ vs, ∀ c ∈ vs, gt a b = false → gt b c = false → gt a c = false

/-- The classifier `c'` holds the same counts as `c`: the same total, the
same entries of `labels_posts`, and the same count at every key of
`words_posts` and `words_labels_posts`. -/
structure SameCounts (c c' : Classifier) : Prop where
  /-- The total is the same. -/
  total : c'.total_posts = c.total_posts
  /-- The entries of `labels_posts` are the same. -/
  labels : c'.labels_posts = c.labels_posts
  /-- Every word has the same count. -/
  words : ∀ w, mapGet c'.words_posts w = mapGet c.words_posts w
  /-- Every pair has the same count. -/
  pairs : ∀ p, mapGet c'.words_labels_posts p = mapGet c.words_labels_posts p

/-- The classifier with which `predict` starts on the records of a test
file: the one given, with the columns of the header of the file. -/
def afterHeader (test : Str) (c : Classifier) : Classifier :=
  colsLoop (getlines ',' (readHeader test).1) 0 c

/-! ## Notions used in the statements about columns and tallies -/

/-- The zero-based position of the last of the fields equal to `x`, if there
is one. -/
def lastPos (x : Str) : List Str → Option Nat
  | [] => none
  | y :: ys =>
    match lastPos x ys with
    | some i => some (i + 1)
    | none => if y = x then some 0 else none

/-- A training file whose tag and content columns are the second and the
third. -/
def shiftedTrain : Str :=
  "n,tag,content\n1,sports,go team go\n2,news,breaking news today\n".toList

/-- A test file whose header names neither a tag nor a content column. -/
def unnamedTest : Str :=
  "title,body\ngo team,sports\n".toList

/-- The sum of the counts of the entries of `words_labels_posts` whose word
is `w`, over all labels. -/
def pairSum (m : List ((Str × Str) × Nat)) (w : Str) : Nat :=
  ((m.filter (fun e => decide (e.1.2 = w))).map Prod.snd).sum

/-- The sum of the counts of all the labels. -/
def labelSum (m : List (Str × Nat)) : Nat :=
  (m.map Prod.snd).sum

/-- A training file whose only data row is empty. -/
def emptyRowTrain : Str :=
  "tag,content\n\n".toList

/-- A training file with a header and no data row. -/
def headerOnlyTrain : Str :=
  "tag,content\n".toList

/-- The classifier `c'` answers every lookup as `c` does: it has the same
total and vocabulary size, and the same count at every key of the three
maps, a key that is absent counting 0. -/
structure SameLookups (c c' : Classifier) : Prop where
  /-- The total is the same. -/
  total : c'.total_posts = c.total_posts
  /-- The vocabulary size is the same. -/
  vocab : c'.vocab_size = c.vocab_size
  /-- Every label has the same count. -/
  labels : ∀ l, mapGet c'.labels_posts l = mapGet c.labels_posts l
  /-- Every word has the same count. -/
  words : ∀ w, mapGet c'.words_posts w = mapGet c.words_posts w
  /-- Every pair has the same count. -/
  pairs : ∀ p, mapGet c'.words_labels_posts p = mapGet c.words_labels_posts p

/-- A test file with a third column for the content and three records
without a content field: an empty line, a record of two fields and a record
of one field. -/
def noContentTest : Str :=
  "tag,n,content\n\nsports,1\nsports\n".toList

/-- A test file with a record for sports followed by an empty line. -/
def staleTestA : Str :=
  "tag,content\nsports,go team\n\n".toList

/-- A test file with a record for news followed by an empty line. -/
def staleTestB : Str :=
  "tag,content\nnews,breaking news\n\n".toList

/-! ## The order on strings -/

theorem char_toNat_inj {a b : Char} (h : a.toNat = b.toNat) : a = b := by
  apply Char.ext
  apply UInt32.ext
  exact h

theorem strLt_irrefl (a : Str) : strLt a a = false := by
  induction a with
  | nil => rfl
  | cons x xs ih => simp [strLt, ih]

theorem strLt_trans : ∀ {a b c : Str}, strLt a b = true → strLt b c = true → strLt a c = true
  | _, [], _, h, _ => by cases ‹Str› <;> simp [strLt] at h
  | _, _ :: _, [], _, h => by simp [strLt] at h
  | [], _ :: _, _ :: _, _, _ => by simp [strLt]
  | x :: xs, y :: ys, z :: zs, h1, h2 => by
    simp only [strLt] at h1 h2 ⊢
    split_ifs at h1 h2 ⊢ <;> first | rfl | omega | exact strLt_trans h1 h2

theorem strLt_total : ∀ {a b : Str}, a ≠ b → strLt a b = true ∨ strLt b a = true
  | [], [], h => absurd rfl h
  | [], _ :: _, _ => by simp [strLt]
  | _ :: _, [], _ => by simp [strLt]
  | x :: xs, y :: ys, h => by
    simp only [strLt]
    by_cases h1 : x.toNat < y.toNat
    · simp [h1]
    · by_cases h2 : y.toNat < x.toNat
      · simp [h2]
      · have hxy : x = y := char_toNat_inj (by omega)
        subst hxy
        simp only [h1, if_false]
        exact strLt_total (fun e => h (by rw [e]))

theorem strLt_strictTotal : StrictTotal strLt :=
  ⟨strLt_irrefl, strLt_trans, strLt_total⟩

/-! ## Maps -/

theorem mapGet_eq_lookup {K : Type} [DecidableEq K] [BEq K] [LawfulBEq K]
    (m : List (K × Nat)) (k : K) : mapGet m k = (m.lookup k).getD 0 := by
  induction m with
  | nil => rfl
  | cons e rest ih =>
    obtain ⟨k0, v0⟩ := e
    by_cases h : k = k0
    · subst h; simp [mapGet, List.lookup]
    · have h' : (k == k0) = false := by simpa using h
      simp [mapGet, List.lookup, h, h', ih]

theorem mapGet_of_not_mem {K : Type} [DecidableEq K] (m : List (K × Nat)) (k : K)
    (h : k ∉ m.map Prod.fst) : mapGet m k = 0 := by
  induction m with
  | nil => rfl
  | cons e rest ih =>
    obtain ⟨k0, v0⟩ := e
    simp only [List.map_cons, List.mem_cons, not_or] at h
    simp [mapGet, h.1, ih h.2]

theorem mapGet_of_mem {K : Type} [DecidableEq K] (m : List (K × Nat)) (k : K)
    (h : k ∈ m.map Prod.fst) : ∃ e ∈ m, e.1 = k ∧ mapGet m k = e.2 := by
  induction m with
  | nil => simp at h
  | cons e rest ih =>
    obtain ⟨k0, v0⟩ := e
    by_cases hk : k = k0
    · subst hk; exact ⟨(k, v0), by simp, rfl, by simp [mapGet]⟩
    · simp only [List.map_cons, List.mem_cons, hk, false_or] at h
      obtain ⟨e, he, h1, h2⟩ := ih h
      exact ⟨e, by simp [he], h1, by simp [mapGet, hk, h2]⟩

theorem not_mem_of_lt_head {K : Type} {lt : K → K → Bool} (hlt : StrictTotal lt)
    (k k0 : K) (v0 : Nat) (rest : List (K × Nat)) (hm : Ascending lt ((k0, v0) :: rest))
    (h : lt k k0 = true) : k ∉ (((k0, v0) :: rest).map Prod.fst) := by
  unfold Ascending at hm
  rw [List.pairwise_cons] at hm
  intro hmem
  simp only [List.map_cons, List.mem_cons] at hmem
  rcases hmem with h1 | h1
  · rw [h1, hlt.irrefl] at h
    exact Bool.noConfusion h
  · obtain ⟨e', he', h'⟩ := List.mem_map.1 h1
    have h4 := hm.1 e' he'
    rw [h'] at h4
    have := hlt.trans h h4
    rw [hlt.irrefl] at this
    exact Bool.noConfusion this

theorem mapGet_mapUpd {K : Type} [DecidableEq K] {lt : K → K → Bool} (hlt : StrictTotal lt)
    (f : Nat → Nat) (m : List (K × Nat)) (k k' : K) (hm : Ascending lt m) :
    mapGet (mapUpd lt f m k) k' = if k' = k then f (mapGet m k) else mapGet m k' := by
  induction m with
  | nil => simp [mapUpd, mapGet]
  | cons e rest ih =>
    obtain ⟨k0, v0⟩ := e
    have hrest : Ascending lt rest := (List.pairwise_cons.1 hm).2
    by_cases h : k = k0
    · subst h
      by_cases h' : k' = k <;> simp [mapUpd, mapGet, h']
    · by_cases hl : lt k k0 = true
      · have h0 := mapGet_of_not_mem _ k (not_mem_of_lt_head hlt k k0 v0 rest hm hl)
        by_cases h' : k' = k
        · subst h'
          have h0' : mapGet rest k' = 0 := by simpa [mapGet, h] using h0
          simp [mapUpd, mapGet, h, hl, h0']
        · simp [mapUpd, mapGet, h, hl, h']
      · by_cases h' : k' = k
        · subst h'; simp [mapUpd, mapGet, h, hl, ih hrest]
        · simp [mapUpd, mapGet, h, hl, h', ih hrest]

theorem mapGet_mapTouch {K : Type} [DecidableEq K] {lt : K → K → Bool} (hlt : StrictTotal lt)
    (m : List (K × Nat)) (k k' : K) (hm : Ascending lt m) :
    mapGet (mapTouch lt m k) k' = mapGet m k' := by
  unfold mapTouch
  rw [mapGet_mapUpd hlt _ _ _ _ hm]
  split
  · next h => subst h; rfl
  · rfl

theorem mapGet_mapIncr {K : Type} [DecidableEq K] {lt : K → K → Bool} (hlt : StrictTotal lt)
    (m : List (K × Nat)) (k k' : K) (hm : Ascending lt m) :
    mapGet (mapIncr lt m k) k' = mapGet m k' + if k' = k then 1 else 0 := by
  unfold mapIncr
  rw [mapGet_mapUpd hlt _ _ _ _ hm]
  split
  · next h => subst h; rfl
  · rfl

theorem fst_mem_mapUpd {K : Type} [DecidableEq K] (lt : K → K → Bool) (f : Nat → Nat)
    (m : List (K × Nat)) (k : K) (e : K × Nat) (he : e ∈ mapUpd lt f m k) :
    e.1 = k ∨ e.1 ∈ m.map Prod.fst := by
  induction m with
  | nil => simp [mapUpd] at he; left; rw [he]
  | cons e0 rest ih =>
    obtain ⟨k0, v0⟩ := e0
    simp only [mapUpd] at he
    split_ifs at he with h1 h2
    · simp only [List.mem_cons] at he
      rcases he with he | he
      · right; simp [he]
      · right; simp only [List.map_cons, List.mem_cons]; right; exact List.mem_map_of_mem _ he
    · simp only [List.mem_cons] at he
      rcases he with he | he | he
      · left; rw [he]
      · right; simp [he]
      · right; simp only [List.map_cons, List.mem_cons]; right; exact List.mem_map_of_mem _ he
    · simp only [List.mem_cons] at he
      rcases he with he | he
      · right; simp [he]
      · rcases ih he with h | h
        · left; exact h
        · right; simp only [List.map_cons, List.mem_cons]; right; exact h

theorem snd_mem_mapUpd {K : Type} [DecidableEq K] (lt : K → K → Bool) (f : Nat → Nat)
    (P : Nat → Prop) (hf : ∀ v, P (f v))
    (m : List (K × Nat)) (k : K) (hm : ∀ e ∈ m, P e.2) :
    ∀ e ∈ mapUpd lt f m k, P e.2 := by
  induction m with
  | nil => intro e he; simp [mapUpd] at he; rw [he]; exact hf 0
  | cons e0 rest ih =>
    obtain ⟨k0, v0⟩ := e0
    intro e he
    simp only [mapUpd] at he
    have hrest : ∀ e ∈ rest, P e.2 := fun e he => hm e (List.mem_cons_of_mem _ he)
    split_ifs at he with h1 h2
    · simp only [List.mem_cons] at he
      rcases he with he | he
      · rw [he]; exact hf v0
      · exact hrest e he
    · simp only [List.mem_cons] at he
      rcases he with he | he | he
      · rw [he]; exact hf 0
      · rw [he]; exact hm (k0, v0) (List.mem_cons_self _ _)
      · exact hrest e he
    · simp only [List.mem_cons] at he
      rcases he with he | he
      · rw [he]; exact hm (k0, v0) (List.mem_cons_self _ _)
      · exact ih hrest e he

theorem ascending_mapUpd {K : Type} [DecidableEq K] {lt : K → K → Bool} (hlt : StrictTotal lt)
    (f : Nat → Nat) (m : List (K × Nat)) (k : K) (hm : Ascending lt m) :
    Ascending lt (mapUpd lt f m k) := by
  induction m with
  | nil => simp [mapUpd, Ascending]
  | cons e0 rest ih =>
    obtain ⟨k0, v0⟩ := e0
    unfold Ascending at hm ih ⊢
    rw [List.pairwise_cons] at hm
    simp only [mapUpd]
    split_ifs with h1 h2
    · exact List.pairwise_cons.2 ⟨hm.1, hm.2⟩
    · refine List.pairwise_cons.2 ⟨?_, List.pairwise_cons.2 hm⟩
      intro e he
      simp only [List.mem_cons] at he
      rcases he with he | he
      · rw [he]; exact h2
      · exact hlt.trans h2 (hm.1 e he)
    · refine List.pairwise_cons.2 ⟨?_, ih hm.2⟩
      intro e he
      rcases fst_mem_mapUpd lt f rest k e he with h | h
      · rw [h]
        rcases hlt.total h1 with h3 | h3
        · exact absurd h3 h2
        · exact h3
      · obtain ⟨e', he', h'⟩ := List.mem_map.1 h
        have := hm.1 e' he'
        rw [h'] at this
        exact this

theorem length_mapUpd {K : Type} [DecidableEq K] {lt : K → K → Bool} (hlt : StrictTotal lt)
    (f : Nat → Nat) (m : List (K × Nat)) (k : K) (hm : Ascending lt m) :
    (mapUpd lt f m k).length = if k ∈ m.map Prod.fst then m.length else m.length + 1 := by
  induction m with
  | nil => simp [mapUpd]
  | cons e0 rest ih =>
    obtain ⟨k0, v0⟩ := e0
    have hrest : Ascending lt rest := (List.pairwise_cons.1 hm).2
    by_cases h1 : k = k0
    · subst h1; simp [mapUpd]
    · by_cases h2 : lt k k0 = true
      · have := not_mem_of_lt_head hlt k k0 v0 rest hm h2
        rw [if_neg this]
        simp [mapUpd, h1, h2]
      · have e : (k ∈ ((k0, v0) :: rest).map Prod.fst) ↔ k ∈ rest.map Prod.fst := by
          simp [h1]
        have hu : mapUpd lt f ((k0, v0) :: rest) k = (k0, v0) :: mapUpd lt f rest k := by
          simp [mapUpd, h1, h2]
        rw [hu, List.length_cons, ih hrest]
        by_cases h3 : k ∈ rest.map Prod.fst
        · rw [if_pos h3, if_pos (e.2 h3)]; rfl
        · rw [if_neg h3, if_neg (fun h => h3 (e.1 h))]; rfl

theorem ascending_nodup {K : Type} {lt : K → K → Bool} (hlt : StrictTotal lt)
    (m : List (K × Nat)) (hm : Ascending lt m) : (m.map Prod.fst).Nodup := by
  unfold Ascending at hm
  rw [List.Nodup, List.pairwise_map]
  refine hm.imp ?_
  intro a b hab e
  rw [e, hlt.irrefl] at hab
  exact Bool.noConfusion hab

theorem pairLt_strictTotal : StrictTotal pairLt := by
  refine ⟨?_, ?_, ?_⟩
  · intro a
    simp [pairLt, strLt_irrefl]
  · intro a b c h1 h2
    simp only [pairLt, Bool.or_eq_true, Bool.and_eq_true, Bool.not_eq_true'] at h1 h2 ⊢
    rcases h1 with h1 | ⟨h1, h1'⟩
    · rcases h2 with h2 | ⟨h2, h2'⟩
      · exact Or.inl (strLt_trans h1 h2)
      · by_cases e : b.1 = c.1
        · rw [← e]; exact Or.inl h1
        · rcases strLt_total e with h3 | h3
          · exact Or.inl (strLt_trans h1 h3)
          · rw [h3] at h2; exact Bool.noConfusion h2
    · by_cases e : a.1 = b.1
      · rw [e]
        rcases h2 with h2 | ⟨h2, h2'⟩
        · exact Or.inl h2
        · exact Or.inr ⟨h2, strLt_trans h1' h2'⟩
      · rcases strLt_total e with h3 | h3
        · rcases h2 with h2 | ⟨h2, h2'⟩
          · exact Or.inl (strLt_trans h3 h2)
          · by_cases e' : b.1 = c.1
            · rw [← e']; exact Or.inl h3
            · rcases strLt_total e' with h4 | h4
              · exact Or.inl (strLt_trans h3 h4)
              · rw [h4] at h2; exact Bool.noConfusion h2
        · rw [h3] at h1; exact Bool.noConfusion h1
  · intro a b hab
    simp only [pairLt, Bool.or_eq_true, Bool.and_eq_true, Bool.not_eq_true']
    by_cases e : a.1 = b.1
    · have e2 : a.2 ≠ b.2 := fun h => hab (Prod.ext e h)
      rw [e]
      rcases strLt_total e2 with h | h
      · exact Or.inl (Or.inr ⟨strLt_irrefl _, h⟩)
      · exact Or.inr (Or.inr ⟨strLt_irrefl _, h⟩)
    · rcases strLt_total e with h | h
      · exact Or.inl (Or.inl h)
      · exact Or.inr (Or.inl h)

/-! ## Sets of strings -/

theorem mem_setInsert (xs : List Str) (w x : Str) :
    x ∈ setInsert xs w ↔ x = w ∨ x ∈ xs := by
  induction xs with
  | nil => simp [setInsert]
  | cons y ys ih =>
    simp only [setInsert]
    split_ifs with h1 h2
    · subst h1; simp
    · simp
    · simp only [List.mem_cons, ih]
      tauto

theorem sorted_setInsert (xs : List Str) (w : Str)
    (h : xs.Pairwise (fun a b => strLt a b = true)) :
    (setInsert xs w).Pairwise (fun a b => strLt a b = true) := by
  induction xs with
  | nil => simp [setInsert]
  | cons y ys ih =>
    rw [List.pairwise_cons] at h
    simp only [setInsert]
    split_ifs with h1 h2
    · exact List.pairwise_cons.2 h
    · refine List.pairwise_cons.2 ⟨?_, List.pairwise_cons.2 h⟩
      intro a ha
      simp only [List.mem_cons] at ha
      rcases ha with ha | ha
      · rw [ha]; exact h2
      · exact strLt_trans h2 (h.1 a ha)
    · refine List.pairwise_cons.2 ⟨?_, ih h.2⟩
      intro a ha
      rcases (mem_setInsert ys w a).1 ha with ha | ha
      · rw [ha]
        rcases strLt_total h1 with h3 | h3
        · exact absurd h3 h2
        · exact h3
      · exact h.1 a ha

theorem mem_foldl_setInsert (l acc : List Str) (x : Str) :
    x ∈ l.foldl setInsert acc ↔ x ∈ acc ∨ x ∈ l := by
  induction l generalizing acc with
  | nil => simp
  | cons y ys ih =>
    simp only [List.foldl_cons, ih, mem_setInsert, List.mem_cons]
    tauto

theorem sorted_foldl_setInsert (l acc : List Str)
    (h : acc.Pairwise (fun a b => strLt a b = true)) :
    (l.foldl setInsert acc).Pairwise (fun a b => strLt a b = true) := by
  induction l generalizing acc with
  | nil => exact h
  | cons y ys ih => exact ih _ (sorted_setInsert acc y h)

theorem sorted_unique_words (s : Str) :
    (unique_words s).Pairwise (fun a b => strLt a b = true) :=
  sorted_foldl_setInsert _ _ List.Pairwise.nil

theorem nodup_unique_words (s : Str) : (unique_words s).Nodup := by
  refine (sorted_unique_words s).imp ?_
  intro a b hab e
  rw [e, strLt_irrefl] at hab
  exact Bool.noConfusion hab

/-! ## Reading lines -/

theorem getline_length (delim : Char) (is line rest : Str)
    (h : getline delim is = some (line, rest)) : rest.length < is.length := by
  cases is with
  | nil => simp [getline] at h
  | cons c cs =>
    simp only [getline, Option.some.injEq, Prod.mk.injEq] at h
    rw [← h.2, List.length_drop]
    have := (List.dropWhile_sublist (l := c :: cs) (fun x => x != delim)).length_le
    simp only [List.length_cons] at this ⊢
    omega

theorem readAll_fuel (delim : Char) (fuel : Nat) (is : Str) (h : is.length ≤ fuel) :
    readAll delim fuel is = readAll delim is.length is := by
  induction fuel using Nat.strong_induction_on generalizing is with
  | _ fuel ih =>
    cases is with
    | nil => cases fuel <;> simp [readAll, getline]
    | cons c cs =>
      obtain ⟨n, rfl⟩ : ∃ n, fuel = n + 1 := ⟨fuel - 1, by simp at h; omega⟩
      simp only [List.length_cons, readAll]
      cases hg : getline delim (c :: cs) with
      | none => rfl
      | some p =>
        obtain ⟨line, rest⟩ := p
        have hl := getline_length delim _ _ _ hg
        simp only [List.length_cons] at hl h
        simp only []
        rw [ih n (by omega) rest (by omega), ih cs.length (by omega) rest (by omega)]

theorem getlines_nil (delim : Char) : getlines delim [] = [] := rfl

theorem getlines_cons (delim : Char) (c : Char) (cs : Str) :
    getlines delim (c :: cs) =
      (c :: cs).takeWhile (· != delim) ::
        getlines delim (((c :: cs).dropWhile (· != delim)).drop 1) := by
  have hg : getline delim (c :: cs) =
      some ((c :: cs).takeWhile (· != delim), ((c :: cs).dropWhile (· != delim)).drop 1) := rfl
  have hl := getline_length delim _ _ _ hg
  unfold getlines
  simp only [List.length_cons, readAll, hg]
  rw [readAll_fuel delim cs.length _ (by simp only [List.length_cons] at hl; omega)]

theorem getlines_step (delim c : Char) (cs : Str) :
    getlines delim (c :: cs) =
      if c = delim then [] :: getlines delim cs
      else match getlines delim cs with
        | [] => [[c]]
        | l :: ls => (c :: l) :: ls := by
  rw [getlines_cons]
  by_cases h : c = delim
  · subst h
    simp [List.takeWhile_cons, List.dropWhile_cons]
  · have h' : (c != delim) = true := by simpa using h
    rw [if_neg h]
    cases cs with
    | nil => simp [List.takeWhile_cons, List.dropWhile_cons, h', getlines_nil]
    | cons d ds =>
      rw [getlines_cons delim d ds]
      simp [List.takeWhile_cons, List.dropWhile_cons, h']

theorem getlines_length (delim : Char) (s : Str) :
    (getlines delim s).length =
      s.count delim + if s = [] ∨ s.getLast? = some delim then 0 else 1 := by
  induction s with
  | nil => rfl
  | cons c cs ih =>
    rw [getlines_step]
    by_cases h : c = delim
    · subst h
      rw [if_pos rfl, List.length_cons, ih, List.count_cons_self]
      cases cs with
      | nil => simp
      | cons d ds =>
        simp only [List.getLast?_cons_cons, reduceCtorEq, false_or]
        omega
    · rw [if_neg h, List.count_cons_of_ne (fun e => h e.symm)]
      cases cs with
      | nil => simp [getlines_nil, h]
      | cons d ds =>
        have hne : getlines delim (d :: ds) ≠ [] := by
          rw [getlines_cons]; simp
        cases hg : getlines delim (d :: ds) with
        | nil => exact absurd hg hne
        | cons l ls =>
          rw [hg] at ih
          simp only [List.length_cons] at ih ⊢
          rw [ih]
          simp [List.getLast?_cons_cons]

theorem getlines_readHeader (file : Str) :
    getlines '\n' (readHeader file).2 = dataRows file := by
  cases file with
  | nil => rfl
  | cons c cs =>
    unfold dataRows
    rw [getlines_cons]
    rfl

theorem readHeader_fst (file : Str) :
    (readHeader file).1 = (getlines '\n' file).headD [] := by
  cases file with
  | nil => rfl
  | cons c cs =>
    rw [getlines_cons]
    rfl

/-! ## Training: what each step leaves unchanged -/

theorem colsLoop_frame (fields : List Str) (count : Nat) (c : Classifier) :
    (colsLoop fields count c).total_posts = c.total_posts ∧
    (colsLoop fields count c).vocab_size = c.vocab_size ∧
    (colsLoop fields count c).words_posts = c.words_posts ∧
    (colsLoop fields count c).labels_posts = c.labels_posts ∧
    (colsLoop fields count c).words_labels_posts = c.words_labels_posts ∧
    (colsLoop fields count c).debug = c.debug ∧
    (colsLoop fields count c).c_label = c.c_label ∧
    (colsLoop fields count c).prediction = c.prediction := by
  induction fields generalizing count c with
  | nil => simp [colsLoop]
  | cons line rest ih =>
    simp only [colsLoop]
    split_ifs <;> simp [ih]

theorem trainWord_frame (label : Str) (c : Classifier) (it : Str) :
    (trainWord label c it).total_posts = c.total_posts ∧
    (trainWord label c it).label_col = c.label_col ∧
    (trainWord label c it).content_col = c.content_col ∧
    (trainWord label c it).labels_posts = c.labels_posts ∧
    (trainWord label c it).debug = c.debug ∧
    (trainWord label c it).c_label = c.c_label ∧
    (trainWord label c it).prediction = c.prediction := by
  simp only [trainWord, increment_vocab]
  split_ifs <;> simp

theorem trainWords_frame (label : Str) (words : List Str) (c : Classifier) :
    (words.foldl (trainWord label) c).total_posts = c.total_posts ∧
    (words.foldl (trainWord label) c).label_col = c.label_col ∧
    (words.foldl (trainWord label) c).content_col = c.content_col ∧
    (words.foldl (trainWord label) c).labels_posts = c.labels_posts ∧
    (words.foldl (trainWord label) c).debug = c.debug ∧
    (words.foldl (trainWord label) c).c_label = c.c_label ∧
    (words.foldl (trainWord label) c).prediction = c.prediction := by
  induction words generalizing c with
  | nil => simp
  | cons w ws ih =>
    have h := trainWord_frame label c w
    simp only [List.foldl_cons]
    have h2 := ih (trainWord label c w)
    refine ⟨h2.1.trans h.1, h2.2.1.trans h.2.1, h2.2.2.1.trans h.2.2.1,
      h2.2.2.2.1.trans h.2.2.2.1, h2.2.2.2.2.1.trans h.2.2.2.2.1,
      h2.2.2.2.2.2.1.trans h.2.2.2.2.2.1, h2.2.2.2.2.2.2.trans h.2.2.2.2.2.2⟩

theorem trainFields_frame (fields : List Str) (count : Nat) (label : Str) (c : Classifier) :
    (trainFields fields count label c).total_posts = c.total_posts ∧
    (trainFields fields count label c).label_col = c.label_col ∧
    (trainFields fields count label c).content_col = c.content_col ∧
    (trainFields fields count label c).debug = c.debug ∧
    (trainFields fields count label c).c_label = c.c_label ∧
    (trainFields fields count label c).prediction = c.prediction := by
  induction fields generalizing count label c with
  | nil => simp [trainFields]
  | cons line rest ih =>
    simp only [trainFields]
    refine ⟨(ih _ _ _).1.trans ?_, (ih _ _ _).2.1.trans ?_, (ih _ _ _).2.2.1.trans ?_,
      (ih _ _ _).2.2.2.1.trans ?_, (ih _ _ _).2.2.2.2.1.trans ?_, (ih _ _ _).2.2.2.2.2.trans ?_⟩
    all_goals
      split_ifs
      all_goals first
        | rfl
        | (simp only [(trainWords_frame _ _ _).1, (trainWords_frame _ _ _).2.1,
            (trainWords_frame _ _ _).2.2.1, (trainWords_frame _ _ _).2.2.2.2.1,
            (trainWords_frame _ _ _).2.2.2.2.2.1, (trainWords_frame _ _ _).2.2.2.2.2.2])

theorem trainRow_frame (c : Classifier) (line : Str) :
    (trainRow c line).total_posts = c.total_posts + 1 ∧
    (trainRow c line).label_col = c.label_col ∧
    (trainRow c line).content_col = c.content_col := by
  simp only [trainRow]
  exact ⟨by rw [(trainFields_frame _ _ _ _).1], (trainFields_frame _ _ _ _).2.1,
    (trainFields_frame _ _ _ _).2.2.1⟩

theorem trainRows_frame (rows : List Str) (c : Classifier) :
    (rows.foldl trainRow c).total_posts = c.total_posts + rows.length ∧
    (rows.foldl trainRow c).label_col = c.label_col ∧
    (rows.foldl trainRow c).content_col = c.content_col := by
  induction rows generalizing c with
  | nil => simp
  | cons r rs ih =>
    simp only [List.foldl_cons, List.length_cons]
    have h := trainRow_frame c r
    have h2 := ih (trainRow c r)
    refine ⟨?_, h2.2.1.trans h.2.1, h2.2.2.trans h.2.2⟩
    rw [h2.1, h.1]; omega

/-- Claim C4: for every training file, `total_posts` after `train` on a new
classifier is the number of data rows of the file, the lines after the
header line, whatever the rows contain; that is one less than the number of
lines, which is the number of newline characters, plus one when the file
ends in a line without newline. -/
theorem train_total_posts (file : Str) :
    (train file Classifier.init).total_posts = (dataRows file).length ∧
    (dataRows file).length =
      file.count '\n' + (if file = [] ∨ file.getLast? = some '\n' then 0 else 1) - 1 := by
  constructor
  · unfold train
    simp only []
    rw [(trainRows_frame _ _).1, getlines_readHeader]
    unfold get_cols
    rw [(colsLoop_frame _ _ _).1]
    simp [Classifier.init]
  · unfold dataRows
    rw [List.length_drop, getlines_length]

/-! ## Training: the shape of the maps -/

theorem wf_init : Wf Classifier.init := by
  refine ⟨?_, ?_, ?_, ?_, ?_, ?_, rfl⟩ <;> simp [Classifier.init, Ascending]

theorem wf_colsLoop (fields : List Str) (count : Nat) (c : Classifier) (h : Wf c) :
    Wf (colsLoop fields count c) := by
  have f := colsLoop_frame fields count c
  obtain ⟨h1, h2, h3, h4, h5, h6, h7⟩ := h
  refine ⟨?_, ?_, ?_, ?_, ?_, ?_, ?_⟩
  · rw [f.2.2.1]; exact h1
  · rw [f.2.2.2.1]; exact h2
  · rw [f.2.2.2.2.1]; exact h3
  · rw [f.2.2.1]; exact h4
  · rw [f.2.2.2.1]; exact h5
  · rw [f.2.2.2.2.1]; exact h6
  · rw [f.2.1, f.2.2.1]; exact h7

theorem one_le_succ (v : Nat) : 1 ≤ v + 1 := Nat.succ_le_succ (Nat.zero_le v)

theorem wf_trainWord (label : Str) (c : Classifier) (it : Str) (h : Wf c) :
    Wf (trainWord label c it) := by
  obtain ⟨h1, h2, h3, h4, h5, h6, h7⟩ := h
  have hget := mapGet_mapIncr strLt_strictTotal c.words_posts it it h1
  have hlen := length_mapUpd strLt_strictTotal (· + 1) c.words_posts it h1
  have hasc := ascending_mapUpd strLt_strictTotal (· + 1) c.words_posts it h1
  have hpos := snd_mem_mapUpd strLt (· + 1) (fun v => 1 ≤ v) one_le_succ c.words_posts it h4
  have hasc2 := ascending_mapUpd pairLt_strictTotal (· + 1) c.words_labels_posts (label, it) h3
  have hpos2 := snd_mem_mapUpd pairLt (· + 1) (fun v => 1 ≤ v) one_le_succ
    c.words_labels_posts (label, it) h6
  have hvocab : (increment_vocab (mapGet (mapIncr strLt c.words_posts it) it)
      { c with words_posts := mapIncr strLt c.words_posts it }).vocab_size =
      (mapIncr strLt c.words_posts it).length := by
    rw [hget]
    simp only [if_true, increment_vocab]
    unfold mapIncr
    rw [hlen]
    by_cases hm : it ∈ c.words_posts.map Prod.fst
    · obtain ⟨e, he, _, h2'⟩ := mapGet_of_mem _ _ hm
      have := h4 e he
      rw [if_neg (by omega), if_pos hm]
      exact h7
    · rw [mapGet_of_not_mem _ _ hm, if_neg hm]
      simp [h7]
  have hframe : ∀ (n : Nat) (d : Classifier),
      (increment_vocab n d).words_posts = d.words_posts ∧
      (increment_vocab n d).labels_posts = d.labels_posts ∧
      (increment_vocab n d).words_labels_posts = d.words_labels_posts := by
    intro n d
    unfold increment_vocab
    split_ifs <;> simp
  refine ⟨?_, ?_, ?_, ?_, ?_, ?_, ?_⟩
  · simp only [trainWord, (hframe _ _).1]; exact hasc
  · simp only [trainWord, (hframe _ _).2.1]; exact h2
  · simp only [trainWord, (hframe _ _).2.2]; exact hasc2
  · simp only [trainWord, (hframe _ _).1]; exact hpos
  · simp only [trainWord, (hframe _ _).2.1]; exact h5
  · simp only [trainWord, (hframe _ _).2.2]; exact hpos2
  · simp only [trainWord, (hframe _ _).1]; exact hvocab

theorem wf_trainWords (label : Str) (words : List Str) (c : Classifier) (h : Wf c) :
    Wf (words.foldl (trainWord label) c) := by
  induction words generalizing c with
  | nil => exact h
  | cons w ws ih => exact ih _ (wf_trainWord label c w h)

theorem wf_incrLabel (c : Classifier) (line : Str) (h : Wf c) :
    Wf { c with labels_posts := mapIncr strLt c.labels_posts line } := by
  obtain ⟨h1, h2, h3, h4, h5, h6, h7⟩ := h
  exact ⟨h1, ascending_mapUpd strLt_strictTotal _ _ _ h2, h3, h4,
    snd_mem_mapUpd strLt (· + 1) (fun v => 1 ≤ v) one_le_succ _ _ h5, h6, h7⟩

theorem wf_trainFields (fields : List Str) (count : Nat) (label : Str) (c : Classifier)
    (h : Wf c) : Wf (trainFields fields count label c) := by
  induction fields generalizing count label c with
  | nil => exact h
  | cons line rest ih =>
    simp only [trainFields]
    apply ih
    by_cases hl : (count : Int) = c.label_col
    · simp only [hl, decide_True, if_true]
      split_ifs
      · exact wf_trainWords _ _ _ (wf_incrLabel c line h)
      · exact wf_incrLabel c line h
    · simp only [hl, decide_False, Bool.false_eq_true, if_false]
      split_ifs
      · exact wf_trainWords _ _ _ h
      · exact h

theorem wf_trainRow (c : Classifier) (line : Str) (h : Wf c) : Wf (trainRow c line) := by
  obtain ⟨h1, h2, h3, h4, h5, h6, h7⟩ := wf_trainFields (getlines ',' line) 0 [] c h
  exact ⟨h1, h2, h3, h4, h5, h6, h7⟩

theorem wf_trainRows (rows : List Str) (c : Classifier) (h : Wf c) :
    Wf (rows.foldl trainRow c) := by
  induction rows generalizing c with
  | nil => exact h
  | cons r rs ih => exact ih _ (wf_trainRow c r h)

theorem wf_train (file : Str) (c : Classifier) (h : Wf c) : Wf (train file c) :=
  wf_trainRows _ _ (wf_colsLoop _ _ _ h)

theorem one_le_mapGet_iff (m : List (Str × Nat)) (hpos : ∀ e ∈ m, 1 ≤ e.2) (w : Str) :
    1 ≤ mapGet m w ↔ w ∈ m.map Prod.fst := by
  constructor
  · intro h
    by_contra hn
    rw [mapGet_of_not_mem _ _ hn] at h
    exact absurd h (by decide)
  · intro h
    obtain ⟨e, he, _, h2⟩ := mapGet_of_mem _ _ h
    rw [h2]
    exact hpos e he

/-- Claim C5: for every training file, `vocab_size` after `train` on a new
classifier is the number of distinct words whose `words_posts` count is at
least 1, each word being counted once however often it occurs. -/
theorem train_vocab_size (file : Str) :
    (train file Classifier.init).vocab_size =
      Set.ncard {w : Str | 1 ≤ mapGet (train file Classifier.init).words_posts w} := by
  have h := wf_train file Classifier.init wf_init
  have hset : {w : Str | 1 ≤ mapGet (train file Classifier.init).words_posts w} =
      ↑((train file Classifier.init).words_posts.map Prod.fst).toFinset := by
    ext w
    simp only [Set.mem_setOf_eq, List.coe_toFinset]
    exact one_le_mapGet_iff _ h.words_pos w
  rw [hset, Set.ncard_coe_Finset,
    List.toFinset_card_of_nodup (ascending_nodup strLt_strictTotal _ h.words_asc),
    List.length_map]
  exact h.vocab

/-! ## The words of a string -/

theorem extract_cons_space (c : Char) (cs : Str) (h : isspace c = true) :
    extract (c :: cs) = extract cs := by
  simp [extract, List.dropWhile_cons, h]

theorem extract_cons_word (c : Char) (cs : Str) (h : isspace c = false) :
    extract (c :: cs) =
      some (c :: cs.takeWhile (fun x => !isspace x), cs.dropWhile (fun x => !isspace x)) := by
  simp [extract, List.dropWhile_cons, List.takeWhile_cons, h]

theorem not_isRun_nil (w : Str) : ¬ IsRun w [] := by
  rintro ⟨h1, _, pre, post, h3, _⟩
  have : pre ++ w ++ post = [] := h3.symm
  simp only [List.append_eq_nil] at this
  exact h1 this.1.2

theorem isRun_cons_space (w : Str) (c : Char) (cs : Str) (h : isspace c = true) :
    IsRun w (c :: cs) ↔ IsRun w cs := by
  constructor
  · rintro ⟨h1, h2, pre, post, h3, h4, h5⟩
    refine ⟨h1, h2, ?_⟩
    cases pre with
    | nil =>
      exfalso
      cases w with
      | nil => exact h1 rfl
      | cons x xs =>
        simp only [List.nil_append, List.cons_append, List.cons.injEq] at h3
        have := h2 x (List.mem_cons_self _ _)
        rw [← h3.1, h] at this
        exact Bool.noConfusion this
    | cons p pre' =>
      simp only [List.cons_append, List.cons.injEq] at h3
      refine ⟨pre', post, h3.2, ?_, h5⟩
      intro d hd
      apply h4 d
      rw [List.getLast?_cons, hd]
      rfl
  · rintro ⟨h1, h2, pre, post, h3, h4, h5⟩
    refine ⟨h1, h2, c :: pre, post, by rw [h3]; rfl, ?_, h5⟩
    intro d hd
    rw [List.getLast?_cons] at hd
    cases hp : pre.getLast? with
    | none =>
      rw [hp] at hd
      simp only [Option.getD_none, Option.some.injEq] at hd
      rw [← hd]; exact h
    | some e =>
      rw [hp] at hd
      simp only [Option.getD_some, Option.some.injEq] at hd
      rw [← hd]; exact h4 e hp

theorem takeWhile_run (w post : Str) (h2 : ∀ c ∈ w, isspace c = false)
    (h5 : ∀ c, post.head? = some c → isspace c = true) :
    (w ++ post).takeWhile (fun x => !isspace x) = w := by
  rw [List.takeWhile_append_of_pos (by intro a ha; simp [h2 a ha])]
  cases post with
  | nil => simp
  | cons p ps =>
    have := h5 p rfl
    simp [List.takeWhile_cons, this]

theorem dropWhile_head_space (s : Str) :
    ∀ c, (s.dropWhile (fun x => !isspace x)).head? = some c → isspace c = true := by
  intro c hc
  have := List.head?_dropWhile_not (fun x => !isspace x) s
  rw [hc] at this
  simpa using this

theorem isRun_cons_word (w : Str) (c : Char) (cs : Str) (h : isspace c = false) :
    IsRun w (c :: cs) ↔
      w = c :: cs.takeWhile (fun x => !isspace x) ∨
      IsRun w (cs.dropWhile (fun x => !isspace x)) := by
  constructor
  · rintro ⟨h1, h2, pre, post, h3, h4, h5⟩
    cases pre with
    | nil =>
      left
      cases w with
      | nil => exact absurd rfl h1
      | cons x xs =>
        simp only [List.nil_append, List.cons_append, List.cons.injEq] at h3
        rw [h3.1, h3.2,
          takeWhile_run xs post (fun d hd => h2 d (List.mem_cons_of_mem _ hd)) h5]
    | cons p pre' =>
      right
      simp only [List.cons_append, List.cons.injEq] at h3
      obtain ⟨rfl, h3⟩ := h3
      -- the part of the text before `w` ends in whitespace, so it is not all in the first word
      have hne : pre' ≠ [] := by
        intro e
        subst e
        have := h4 c rfl
        rw [h] at this
        exact Bool.noConfusion this
      have hlast : ∀ d, pre'.getLast? = some d → isspace d = true := by
        intro d hd
        apply h4 d
        rw [List.getLast?_cons, hd]
        rfl
      have hdrop : pre'.dropWhile (fun x => !isspace x) ≠ [] := by
        intro e
        rw [List.dropWhile_eq_nil_iff] at e
        have hl := List.getLast?_eq_getLast_of_ne_nil hne
        have h6 := e _ (List.getLast_mem hne)
        have h7 := hlast _ hl
        simp [h7] at h6
      refine ⟨h1, h2, pre'.dropWhile (fun x => !isspace x), post, ?_, ?_, h5⟩
      · rw [h3, List.append_assoc, List.dropWhile_append]
        have : (pre'.dropWhile (fun x => !isspace x)).isEmpty = false := by
          cases hd : pre'.dropWhile (fun x => !isspace x) with
          | nil => exact absurd hd hdrop
          | cons _ _ => rfl
        rw [this]
        simp
      · intro d hd
        apply hlast d
        have hs := List.dropWhile_suffix (l := pre') (fun x => !isspace x)
        rw [List.getLast?_eq_getLast_of_ne_nil hdrop, Option.some.injEq] at hd
        rw [List.getLast?_eq_getLast_of_ne_nil hne, Option.some.injEq, ← hd]
        exact (hs.getLast hdrop).symm
  · rintro (rfl | ⟨h1, h2, pre, post, h3, h4, h5⟩)
    · refine ⟨by simp, ?_, [], cs.dropWhile (fun x => !isspace x), ?_, by simp,
        dropWhile_head_space cs⟩
      · intro d hd
        simp only [List.mem_cons] at hd
        rcases hd with hd | hd
        · rw [hd]; exact h
        · have := List.mem_takeWhile_imp hd
          simpa using this
      · simp
    · have hpre : pre ≠ [] := by
        intro e
        subst e
        cases w with
        | nil => exact h1 rfl
        | cons x xs =>
          have h6 := dropWhile_head_space cs x (by rw [h3]; rfl)
          have h7 := h2 x (List.mem_cons_self _ _)
          rw [h6] at h7
          exact Bool.noConfusion h7
      refine ⟨h1, h2, c :: cs.takeWhile (fun x => !isspace x) ++ pre, post, ?_, ?_, h5⟩
      · have := List.takeWhile_append_dropWhile (fun x => !isspace x) cs
        rw [h3] at this
        simp only [List.cons_append, List.append_assoc, List.cons.injEq, true_and]
        simpa [List.append_assoc] using this.symm
      · intro d hd
        apply h4 d
        rw [← hd, List.getLast?_append_of_ne_nil _ hpre]

theorem mem_extractAll_iff (w : Str) :
    ∀ (n : Nat) (s : Str) (fuel : Nat), s.length ≤ n → s.length ≤ fuel →
      (w ∈ extractAll fuel s ↔ IsRun w s) := by
  intro n
  induction n with
  | zero =>
    intro s fuel hs _
    have : s = [] := List.eq_nil_of_length_eq_zero (Nat.le_zero.1 hs)
    subst this
    have h0 : extractAll fuel [] = [] := by
      cases fuel <;> simp [extractAll, extract]
    rw [h0]
    simp [not_isRun_nil]
  | succ n ih =>
    intro s fuel hs hf
    cases s with
    | nil =>
      have h0 : extractAll fuel [] = [] := by
        cases fuel <;> simp [extractAll, extract]
      rw [h0]
      simp [not_isRun_nil]
    | cons c cs =>
      simp only [List.length_cons] at hs hf
      obtain ⟨m, rfl⟩ : ∃ m, fuel = m + 1 := ⟨fuel - 1, by omega⟩
      cases hc : isspace c with
      | true =>
        have e : extractAll (m + 1) (c :: cs) = extractAll (m + 1) cs := by
          simp only [extractAll, extract_cons_space c cs hc]
        rw [e, isRun_cons_space w c cs hc]
        exact ih cs (m + 1) (by omega) (by omega)
      | false =>
        have e : extractAll (m + 1) (c :: cs) =
            (c :: cs.takeWhile (fun x => !isspace x)) ::
              extractAll m (cs.dropWhile (fun x => !isspace x)) := by
          simp only [extractAll, extract_cons_word c cs hc]
        have hl := (List.dropWhile_sublist (l := cs) (fun x => !isspace x)).length_le
        rw [e, isRun_cons_word w c cs hc, List.mem_cons,
          ih (cs.dropWhile (fun x => !isspace x)) m (by omega) (by omega)]

theorem mem_unique_words_iff (w s : Str) : w ∈ unique_words s ↔ IsRun w s := by
  unfold unique_words
  rw [mem_foldl_setInsert]
  simp only [List.not_mem_nil, false_or]
  exact mem_extractAll_iff w s.length s s.length (Nat.le_refl _) (Nat.le_refl _)

theorem extractAll_fuel (s : Str) (fuel : Nat) (h : s.length ≤ fuel) :
    extractAll fuel s = extractAll s.length s := by
  induction fuel using Nat.strong_induction_on generalizing s with
  | _ fuel ih =>
    cases s with
    | nil => cases fuel <;> simp [extractAll, extract]
    | cons c cs =>
      simp only [List.length_cons] at h
      obtain ⟨m, rfl⟩ : ∃ m, fuel = m + 1 := ⟨fuel - 1, by omega⟩
      cases hc : isspace c with
      | true =>
        simp only [List.length_cons, extractAll, extract_cons_space c cs hc]
        cases hx : extract cs with
        | none => rfl
        | some p =>
          obtain ⟨word, rest⟩ := p
          simp only []
          have hr : rest.length ≤ cs.length := by
            unfold extract at hx
            split at hx
            · exact Option.noConfusion hx
            · next d ds hd =>
              simp only [Option.some.injEq, Prod.mk.injEq] at hx
              rw [← hx.2, ← hd]
              exact ((List.dropWhile_sublist _).trans (List.dropWhile_sublist _)).length_le
          rw [ih m (by omega) rest (by omega), ih cs.length (by omega) rest hr]
      | false =>
        simp only [List.length_cons, extractAll, extract_cons_word c cs hc]
        have hl := (List.dropWhile_sublist (l := cs) (fun x => !isspace x)).length_le
        rw [ih m (by omega) _ (by omega), ih cs.length (by omega) _ (by omega)]

theorem exists_isRun (s : Str) (c : Char) (hc : c ∈ s) (hs : isspace c = false) :
    ∃ w, IsRun w s := by
  have hne : s.dropWhile isspace ≠ [] := by
    intro e
    rw [List.dropWhile_eq_nil_iff] at e
    have := e c hc
    rw [hs] at this
    exact Bool.noConfusion this
  cases hd : s.dropWhile isspace with
  | nil => exact absurd hd hne
  | cons d ds =>
    have hdn : isspace d = false := by
      have := List.head?_dropWhile_not isspace s
      rw [hd] at this
      simpa using this
    refine ⟨d :: ds.takeWhile (fun x => !isspace x), by simp, ?_, s.takeWhile isspace,
      ds.dropWhile (fun x => !isspace x), ?_, ?_, dropWhile_head_space ds⟩
    · intro x hx
      simp only [List.mem_cons] at hx
      rcases hx with hx | hx
      · rw [hx]; exact hdn
      · have := List.mem_takeWhile_imp hx
        simpa using this
    · have h1 := List.takeWhile_append_dropWhile isspace s
      have h2 := List.takeWhile_append_dropWhile (fun x => !isspace x) ds
      rw [hd] at h1
      rw [List.append_assoc, List.cons_append, h2]
      exact h1.symm
    · intro x hx
      have hx' : x ∈ s.takeWhile isspace := by
        rw [List.getLast?_eq_some_iff] at hx
        obtain ⟨ys, hys⟩ := hx
        rw [hys]
        simp
      exact List.mem_takeWhile_imp hx'

/-- Claim C8: for every string `s`, `unique_words s` is exactly the set of
maximal non-empty runs of non-whitespace characters of `s` (`IsRun`): its
members are those runs, unchanged, each listed once (in ascending order),
and it is empty exactly when `s` holds nothing but whitespace, as the empty
string does. -/
theorem unique_words_spec (s : Str) :
    (∀ w, w ∈ unique_words s ↔ IsRun w s) ∧
    (unique_words s).Nodup ∧
    (unique_words s).Pairwise (fun a b => strLt a b = true) ∧
    (unique_words s = [] ↔ ∀ c ∈ s, isspace c = true) ∧
    unique_words [] = [] := by
  refine ⟨fun w => mem_unique_words_iff w s, nodup_unique_words s, sorted_unique_words s,
    ?_, rfl⟩
  constructor
  · intro h c hc
    by_contra hn
    have hn' : isspace c = false := by simpa using hn
    obtain ⟨w, hw⟩ := exists_isRun s c hc hn'
    have := (mem_unique_words_iff w s).2 hw
    rw [h] at this
    exact absurd this (List.not_mem_nil w)
  · intro h
    apply List.eq_nil_iff_forall_not_mem.2
    intro w hw
    obtain ⟨h1, h2, pre, post, h3, _, _⟩ := (mem_unique_words_iff w s).1 hw
    cases w with
    | nil => exact h1 rfl
    | cons x xs =>
      have hx : x ∈ s := by rw [h3]; simp
      have := h2 x (List.mem_cons_self _ _)
      rw [h x hx] at this
      exact Bool.noConfusion this

/-! ## Training: the word counts -/

theorem fieldFrom_nil (count : Nat) (col : Int) : fieldFrom [] count col = none := by
  unfold fieldFrom
  split_ifs <;> rfl

theorem fieldFrom_cons_eq (line : Str) (rest : List Str) (count : Nat) (col : Int)
    (h : (count : Int) = col) : fieldFrom (line :: rest) count col = some line := by
  unfold fieldFrom
  subst h
  simp

theorem fieldFrom_cons_ne (line : Str) (rest : List Str) (count : Nat) (col : Int)
    (h : (count : Int) ≠ col) :
    fieldFrom (line :: rest) count col = fieldFrom rest (count + 1) col := by
  unfold fieldFrom
  by_cases h1 : (count : Int) ≤ col
  · have h2 : ((count + 1 : Nat) : Int) ≤ col := by push_cast; omega
    have h3 : (col - count).toNat = (col - (count + 1 : Nat)).toNat + 1 := by
      push_cast; omega
    rw [if_pos h1, if_pos h2, h3]
    rfl
  · have h2 : ¬ ((count + 1 : Nat) : Int) ≤ col := by push_cast; omega
    rw [if_neg h1, if_neg h2]

theorem fieldFrom_succ_none (rest : List Str) (count : Nat) (col : Int)
    (h : (count : Int) = col) : fieldFrom rest (count + 1) col = none := by
  unfold fieldFrom
  have h2 : ¬ ((count + 1 : Nat) : Int) ≤ col := by push_cast; omega
  rw [if_neg h2]

theorem fieldAt_eq_fieldFrom (col : Int) (row : Str) :
    fieldAt col row = fieldFrom (getlines ',' row) 0 col := by
  unfold fieldAt fieldFrom
  simp

theorem trainWord_words_posts (label : Str) (c : Classifier) (it : Str) :
    (trainWord label c it).words_posts = mapIncr strLt c.words_posts it := by
  simp only [trainWord, increment_vocab]
  split_ifs <;> rfl

theorem trainWords_get (label : Str) (words : List Str) (c : Classifier) (h : Wf c)
    (hn : words.Nodup) (w : Str) :
    mapGet (words.foldl (trainWord label) c).words_posts w =
      mapGet c.words_posts w + if w ∈ words then 1 else 0 := by
  induction words generalizing c with
  | nil => simp
  | cons x xs ih =>
    rw [List.nodup_cons] at hn
    simp only [List.foldl_cons]
    rw [ih _ (wf_trainWord label c x h) hn.2, trainWord_words_posts,
      mapGet_mapIncr strLt_strictTotal _ _ _ h.words_asc]
    by_cases h1 : w = x
    · subst h1
      simp [hn.1]
    · simp [h1]

theorem trainFields_get (w : Str) (fields : List Str) (count : Nat) (label : Str)
    (c : Classifier) (h : Wf c) :
    mapGet (trainFields fields count label c).words_posts w =
      mapGet c.words_posts w +
        match fieldFrom fields count c.content_col with
        | some f => if w ∈ unique_words f then 1 else 0
        | none => 0 := by
  induction fields generalizing count label c with
  | nil => simp [trainFields, fieldFrom_nil]
  | cons line rest ih =>
    simp only [trainFields]
    -- the classifier after the label column has been handled
    obtain ⟨c1, hc1, hwf1, hcol1, hwp1⟩ : ∃ c1 : Classifier,
        c1 = (if decide ((count : Int) = c.label_col) = true
          then { c with labels_posts := mapIncr strLt c.labels_posts line } else c) ∧
        Wf c1 ∧ c1.content_col = c.content_col ∧ c1.words_posts = c.words_posts := by
      refine ⟨_, rfl, ?_, ?_, ?_⟩
      · split_ifs
        · exact wf_incrLabel c line h
        · exact h
      · split_ifs <;> rfl
      · split_ifs <;> rfl
    rw [← hc1]
    by_cases hc : (count : Int) = c.content_col
    · have hc' : (count : Int) = c1.content_col := by rw [hcol1]; exact hc
      rw [if_pos hc', ih _ _ _ (wf_trainWords _ _ _ hwf1), (trainWords_frame _ _ _).2.2.1,
        hcol1, fieldFrom_succ_none rest count _ hc, fieldFrom_cons_eq line rest count _ hc,
        trainWords_get _ _ _ hwf1 (nodup_unique_words line), hwp1]
      simp
    · have hc' : ¬ (count : Int) = c1.content_col := by rw [hcol1]; exact hc
      rw [if_neg hc', ih _ _ _ hwf1, hcol1, fieldFrom_cons_ne line rest count _ hc, hwp1]

theorem trainRow_get (w : Str) (c : Classifier) (row : Str) (h : Wf c) :
    mapGet (trainRow c row).words_posts w =
      mapGet c.words_posts w + if rowHasWord c.content_col w row = true then 1 else 0 := by
  have h1 := trainFields_get w (getlines ',' row) 0 [] c h
  simp only [trainRow]
  rw [h1]
  congr 1
  unfold rowHasWord
  rw [fieldAt_eq_fieldFrom]
  cases fieldFrom (getlines ',' row) 0 c.content_col with
  | none => rfl
  | some f => simp

theorem trainRows_get (w : Str) (rows : List Str) (c : Classifier) (h : Wf c) :
    mapGet (rows.foldl trainRow c).words_posts w =
      mapGet c.words_posts w + (rows.filter (rowHasWord c.content_col w)).length := by
  induction rows generalizing c with
  | nil => simp
  | cons r rs ih =>
    simp only [List.foldl_cons]
    rw [ih _ (wf_trainRow c r h), trainRow_get w c r h, (trainRow_frame c r).2.2,
      List.filter_cons]
    by_cases hr : rowHasWord c.content_col w r = true
    · simp only [hr, if_true, List.length_cons]; omega
    · simp only [hr, if_false]; rfl

theorem rowHasWord_iff (col : Int) (w row : Str) :
    rowHasWord col w row = true ↔ ∃ f, fieldAt col row = some f ∧ IsRun w f := by
  unfold rowHasWord
  cases fieldAt col row with
  | none => simp
  | some f => simp [mem_unique_words_iff]

/-- Claim C6: for every training file and every word `w`, `words_posts[w]`
after `train` on a new classifier is the number of data rows for which
`rowHasWord` holds, and it holds for the rows that have a field in the
content column of the header in which `w` is a whitespace-delimited token
(`IsRun`); a row counts once however often it repeats `w`. -/
theorem train_words_posts (file w : Str) :
    mapGet (train file Classifier.init).words_posts w =
      ((dataRows file).filter (rowHasWord (contentCol file) w)).length ∧
    ∀ row, rowHasWord (contentCol file) w row = true ↔
      ∃ f, fieldAt (contentCol file) row = some f ∧ IsRun w f := by
  refine ⟨?_, fun row => rowHasWord_iff _ w row⟩
  unfold train get_cols
  simp only []
  rw [trainRows_get w _ _ (wf_colsLoop _ _ _ wf_init), getlines_readHeader,
    (colsLoop_frame _ _ _).2.2.1]
  simp [Classifier.init, mapGet, contentCol, get_cols]

/-! ## The scorer -/

/-- Claim C1: for every classifier, label and word, `calc_log_likelihood`
returns `log(1 / total_posts)` if the count of the word is 0, otherwise
`log(words_posts[word] / total_posts)` if the count of the pair is 0,
otherwise `log(words_labels_posts[(label, word)] / labels_posts[label])`,
the cases being tested in this order and the count of an absent key being
0. -/
theorem calc_log_likelihood_spec {F : Type} (A : Arith F) (c : Classifier) (label word : Str) :
    (calc_log_likelihood A label word c).1 =
      if (c.words_posts.lookup word).getD 0 = 0 then
        A.log (A.div (A.ofCount 1) (A.ofCount c.total_posts))
      else if (c.words_labels_posts.lookup (label, word)).getD 0 = 0 then
        A.log (A.div (A.ofCount ((c.words_posts.lookup word).getD 0))
          (A.ofCount c.total_posts))
      else
        A.log (A.div (A.ofCount ((c.words_labels_posts.lookup (label, word)).getD 0))
          (A.ofCount ((c.labels_posts.lookup label).getD 0))) := by
  simp only [← mapGet_eq_lookup]
  unfold calc_log_likelihood
  by_cases h1 : mapGet c.words_posts word = 0
  · simp only [h1, if_true]
  · by_cases h2 : mapGet c.words_labels_posts (label, word) = 0
    · simp only [h1, h2, if_true, if_false]
    · simp only [h1, h2, if_false]

/-! ## The end-to-end scenarios -/

/-- Claim C9: training a new classifier on the file with header
`tag,content` and the rows `sports,go team go` and `news,breaking news today`
gives the label counts news 1 and sports 1, `total_posts = 2` and
`vocab_size = 5`, the words being breaking, go, news, team and today. -/
theorem train_scenario :
    (train scenarioTrain Classifier.init).labels_posts =
      [("news".toList, 1), ("sports".toList, 1)] ∧
    (train scenarioTrain Classifier.init).total_posts = 2 ∧
    (train scenarioTrain Classifier.init).vocab_size = 5 ∧
    (train scenarioTrain Classifier.init).words_posts =
      [("breaking".toList, 1), ("go".toList, 1), ("news".toList, 1), ("team".toList, 1),
        ("today".toList, 1)] := by
  decide

/-- Claim C2, at a failing input: after training on the scenario file, the
record `go zzz,` of a test file with header `content,tag` has a content
field, for which the label sports has the highest total log-probability,
`log(1/4)`, the label news having `log(1/8)`; the special case for records
without content nevertheless runs, because the record has one field, and
`predict` emits the label news with its log-prior `log(1/2)`. -/
theorem predict_single_field_score :
    fieldAt (contentCol contentFirstTest) "go zzz,".toList = some "go zzz".toList ∧
    (labelScore exactArith "sports".toList (unique_words "go zzz".toList)
      (train scenarioTrain Classifier.init)).1 = Exact.ln 1 4 ∧
    (labelScore exactArith "news".toList (unique_words "go zzz".toList)
      (train scenarioTrain Classifier.init)).1 = Exact.ln 1 8 ∧
    (predict exactArith contentFirstTest (train scenarioTrain Classifier.init)).1.records.map
        (fun e => (e.predicted, e.score, e.content)) =
      [("news".toList, Exact.ln 1 2, "go zzz".toList)] := by
  decide

/-- Claim C3, at a failing input: after training on `tieTrain`, the record
`x,` of a test file with header `content,tag` gives the labels a and b the
same total log-probability, which is higher than that of the label c, so
that a is the first label with the maximal total; the special case for
records without content nevertheless runs, because the record has one
field, and `predict` emits the label c. -/
theorem predict_single_field_tie :
    (labelScore exactArith "a".toList (unique_words "x".toList)
      (train tieTrain Classifier.init)).1 =
      (labelScore exactArith "b".toList (unique_words "x".toList)
        (train tieTrain Classifier.init)).1 ∧
    exactArith.gt
      (labelScore exactArith "a".toList (unique_words "x".toList)
        (train tieTrain Classifier.init)).1
      (labelScore exactArith "c".toList (unique_words "x".toList)
        (train tieTrain Classifier.init)).1 = true ∧
    (train tieTrain Classifier.init).labels_posts.map Prod.fst =
      ["a".toList, "b".toList, "c".toList] ∧
    (predict exactArith tieTest (train tieTrain Classifier.init)).1.records.map
        (fun e => (e.predicted, e.score, e.content)) =
      [("c".toList, Exact.ln 3 7, "x".toList)] := by
  decide

/-- Claim C7, at a failing input: when the content column comes before the
tag column, the words of a row are counted with the empty label, not with
the label of the row. After training on `contentFirstTrain`, whose row
`go team go,sports` has the tag sports and the word go, the count of the
pair (sports, go) is 0 and the count of the pair (empty label, go) is 1. -/
theorem train_content_first :
    labelCol contentFirstTrain = 1 ∧ contentCol contentFirstTrain = 0 ∧
    dataRows contentFirstTrain =
      ["go team go,sports".toList, "breaking news today,news".toList] ∧
    mapGet (train contentFirstTrain Classifier.init).words_labels_posts
      ("sports".toList, "go".toList) = 0 ∧
    mapGet (train contentFirstTrain Classifier.init).words_labels_posts
      ([], "go".toList) = 1 ∧
    mapGet (train scenarioTrain Classifier.init).words_labels_posts
      ("sports".toList, "go".toList) = 1 := by
  decide

/-! ## Prediction: reads leave the counts unchanged -/

theorem sorted_of_wf {c : Classifier} (h : Wf c) : Sorted c :=
  ⟨h.words_asc, h.labels_asc, h.pairs_asc⟩

theorem mapUpd_id_of_mem {K : Type} [DecidableEq K] {lt : K → K → Bool} (hlt : StrictTotal lt)
    (m : List (K × Nat)) (k : K) (hm : Ascending lt m) (hk : k ∈ m.map Prod.fst) :
    mapUpd lt id m k = m := by
  induction m with
  | nil => simp at hk
  | cons e rest ih =>
    obtain ⟨k0, v0⟩ := e
    have hrest : Ascending lt rest := (List.pairwise_cons.1 hm).2
    by_cases h1 : k = k0
    · subst h1; simp [mapUpd]
    · by_cases h2 : lt k k0 = true
      · exact absurd hk (not_mem_of_lt_head hlt k k0 v0 rest hm h2)
      · have hk' : k ∈ rest.map Prod.fst := by simpa [h1] using hk
        simp [mapUpd, h1, h2, ih hrest hk']

theorem reads_refl {c : Classifier} (h : Sorted c) : Reads c c :=
  ⟨rfl, rfl, rfl, rfl, rfl, rfl, fun _ => rfl, fun _ => rfl, h⟩

theorem reads_trans {a b c : Classifier} (h1 : Reads a b) (h2 : Reads b c) : Reads a c :=
  ⟨h2.total.trans h1.total, h2.vocab.trans h1.vocab, h2.debug.trans h1.debug,
    h2.label_col.trans h1.label_col, h2.content_col.trans h1.content_col,
    h2.labels.trans h1.labels, fun w => (h2.words w).trans (h1.words w),
    fun p => (h2.pairs p).trans (h1.pairs p), h2.sorted⟩

theorem reads_set_prediction {c c' : Classifier} (h : Reads c c') (p : Str) :
    Reads c { c' with prediction := p } :=
  ⟨h.total, h.vocab, h.debug, h.label_col, h.content_col, h.labels, h.words, h.pairs,
    ⟨h.sorted.words_asc, h.sorted.labels_asc, h.sorted.pairs_asc⟩⟩

theorem reads_set_c_label {c c' : Classifier} (h : Reads c c') (p : Str) :
    Reads c { c' with c_label := p } :=
  ⟨h.total, h.vocab, h.debug, h.label_col, h.content_col, h.labels, h.words, h.pairs,
    ⟨h.sorted.words_asc, h.sorted.labels_asc, h.sorted.pairs_asc⟩⟩

theorem calc_log_prior_reads {F : Type} (A : Arith F) (label : Str) (c : Classifier)
    (h : Sorted c) (hl : label ∈ c.labels_posts.map Prod.fst) :
    Reads c (calc_log_prior A label c).2 ∧
    (calc_log_prior A label c).2.prediction = c.prediction ∧
    (calc_log_prior A label c).2.c_label = c.c_label := by
  have e : mapTouch strLt c.labels_posts label = c.labels_posts :=
    mapUpd_id_of_mem strLt_strictTotal _ _ h.labels_asc hl
  have hc : (calc_log_prior A label c).2 = c := by
    simp only [calc_log_prior, e]
  rw [hc]
  exact ⟨reads_refl h, rfl, rfl⟩

theorem calc_log_likelihood_reads {F : Type} (A : Arith F) (label word : Str) (c : Classifier)
    (h : Sorted c) (hl : label ∈ c.labels_posts.map Prod.fst) :
    Reads c (calc_log_likelihood A label word c).2 ∧
    (calc_log_likelihood A label word c).2.prediction = c.prediction ∧
    (calc_log_likelihood A label word c).2.c_label = c.c_label := by
  have e : mapTouch strLt c.labels_posts label = c.labels_posts :=
    mapUpd_id_of_mem strLt_strictTotal _ _ h.labels_asc hl
  have hw := fun w => mapGet_mapTouch strLt_strictTotal c.words_posts word w h.words_asc
  have hp := fun p =>
    mapGet_mapTouch pairLt_strictTotal c.words_labels_posts (label, word) p h.pairs_asc
  have aw : Ascending strLt (mapTouch strLt c.words_posts word) :=
    ascending_mapUpd strLt_strictTotal id _ _ h.words_asc
  have ap : Ascending pairLt (mapTouch pairLt c.words_labels_posts (label, word)) :=
    ascending_mapUpd pairLt_strictTotal id _ _ h.pairs_asc
  unfold calc_log_likelihood
  simp only []
  split_ifs
  · exact ⟨⟨rfl, rfl, rfl, rfl, rfl, rfl, hw, fun _ => rfl, ⟨aw, h.labels_asc, h.pairs_asc⟩⟩,
      rfl, rfl⟩
  · exact ⟨⟨rfl, rfl, rfl, rfl, rfl, rfl, hw, hp, ⟨aw, h.labels_asc, ap⟩⟩, rfl, rfl⟩
  · refine ⟨⟨rfl, rfl, rfl, rfl, rfl, e, hw, hp, ⟨aw, ?_, ap⟩⟩, rfl, rfl⟩
    show Ascending strLt (mapTouch strLt c.labels_posts label)
    rw [e]; exact h.labels_asc

theorem calc_log_prior_congr {F : Type} (A : Arith F) (label : Str) {c c' : Classifier}
    (h : Reads c c') : (calc_log_prior A label c').1 = (calc_log_prior A label c).1 := by
  simp only [calc_log_prior, h.labels, h.total]

theorem calc_log_likelihood_congr {F : Type} (A : Arith F) (label word : Str)
    {c c' : Classifier} (h : Reads c c') :
    (calc_log_likelihood A label word c').1 = (calc_log_likelihood A label word c).1 := by
  unfold calc_log_likelihood
  simp only [h.words, h.pairs, h.labels, h.total]
  split_ifs <;> rfl

theorem totalScore_congr {F : Type} (A : Arith F) (label : Str) (words : List Str)
    {c c' : Classifier} (h : Reads c c') :
    totalScore A c' label words = totalScore A c label words := by
  unfold totalScore
  rw [calc_log_prior_congr A label h]
  congr 1
  funext p w
  rw [calc_log_likelihood_congr A label w h]

theorem addWords_reads {F : Type} (A : Arith F) (label : Str) (words : List Str) (p : F)
    (c : Classifier) (h : Sorted c) (hl : label ∈ c.labels_posts.map Prod.fst) :
    (addWords A label words p c).1 =
      words.foldl (fun p w => A.add p (calc_log_likelihood A label w c).1) p ∧
    Reads c (addWords A label words p c).2 ∧
    (addWords A label words p c).2.prediction = c.prediction ∧
    (addWords A label words p c).2.c_label = c.c_label := by
  induction words generalizing p c with
  | nil => exact ⟨rfl, reads_refl h, rfl, rfl⟩
  | cons w ws ih =>
    obtain ⟨r1, r2, r3⟩ := calc_log_likelihood_reads A label w c h hl
    have hl' : label ∈ (calc_log_likelihood A label w c).2.labels_posts.map Prod.fst := by
      rw [r1.labels]; exact hl
    obtain ⟨i1, i2, i3, i4⟩ := ih (A.add p (calc_log_likelihood A label w c).1)
      (calc_log_likelihood A label w c).2 r1.sorted hl'
    simp only [addWords, List.foldl_cons]
    refine ⟨?_, reads_trans r1 i2, i3.trans r2, i4.trans r3⟩
    rw [i1]
    congr 1
    funext q v
    rw [calc_log_likelihood_congr A label v r1]

theorem labelScore_reads {F : Type} (A : Arith F) (label : Str) (words : List Str)
    (c : Classifier) (h : Sorted c) (hl : label ∈ c.labels_posts.map Prod.fst) :
    (labelScore A label words c).1 = totalScore A c label words ∧
    Reads c (labelScore A label words c).2 ∧
    (labelScore A label words c).2.prediction = c.prediction ∧
    (labelScore A label words c).2.c_label = c.c_label := by
  obtain ⟨r1, r2, r3⟩ := calc_log_prior_reads A label c h hl
  have hl' : label ∈ (calc_log_prior A label c).2.labels_posts.map Prod.fst := by
    rw [r1.labels]; exact hl
  obtain ⟨i1, i2, i3, i4⟩ := addWords_reads A label words
    (A.add (A.ofCount 0) (calc_log_prior A label c).1) (calc_log_prior A label c).2 r1.sorted hl'
  simp only [labelScore]
  refine ⟨?_, reads_trans r1 i2, i3.trans r2, i4.trans r3⟩
  rw [i1]
  unfold totalScore
  congr 1
  funext q v
  rw [calc_log_likelihood_congr A label v r1]

/-! ## Prediction: the loops over the labels -/

theorem scoreLabels_pick {F : Type} (A : Arith F) (words : List Str) (ls : List (Str × Nat))
    (max : F) (c : Classifier) (h : Sorted c)
    (hls : ∀ e ∈ ls, e.1 ∈ c.labels_posts.map Prod.fst) :
    ((scoreLabels A words ls max c).1, (scoreLabels A words ls max c).2.prediction) =
      pick A.gt (ls.map (fun e => (e.1, totalScore A c e.1 words))) (max, c.prediction) ∧
    Reads c (scoreLabels A words ls max c).2 ∧
    (scoreLabels A words ls max c).2.c_label = c.c_label := by
  induction ls generalizing max c with
  | nil => exact ⟨rfl, reads_refl h, rfl⟩
  | cons it1 rest ih =>
    obtain ⟨s1, s2, s3, s4⟩ := labelScore_reads A it1.1 words c h
      (hls it1 (List.mem_cons_self _ _))
    have hrest : ∀ (d : Classifier), Reads c d → ∀ e ∈ rest, e.1 ∈ d.labels_posts.map Prod.fst := by
      intro d hd e he
      rw [hd.labels]
      exact hls e (List.mem_cons_of_mem _ he)
    have hmap : ∀ (d : Classifier), Reads c d →
        rest.map (fun e => (e.1, totalScore A d e.1 words)) =
          rest.map (fun e => (e.1, totalScore A c e.1 words)) := by
      intro d hd
      apply List.map_congr_left
      intro e _
      rw [totalScore_congr A e.1 words hd]
    simp only [scoreLabels, List.map_cons, pick]
    rw [s1]
    by_cases hg : A.gt (totalScore A c it1.1 words) max = true
    · rw [if_pos hg, if_pos hg]
      have hr := reads_set_prediction s2 it1.1
      obtain ⟨i1, i2, i3⟩ := ih (totalScore A c it1.1 words)
        { (labelScore A it1.1 words c).2 with prediction := it1.1 } hr.sorted (hrest _ hr)
      refine ⟨?_, reads_trans hr i2, i3.trans s4⟩
      rw [i1, hmap _ hr]
    · rw [if_neg hg, if_neg hg]
      obtain ⟨i1, i2, i3⟩ := ih max (labelScore A it1.1 words c).2 s2.sorted (hrest _ s2)
      refine ⟨?_, reads_trans s2 i2, i3.trans s4⟩
      rw [i1, hmap _ s2, s3]

theorem priorLabels_pick {F : Type} (A : Arith F) (ls : List (Str × Nat))
    (max : F) (c : Classifier) (h : Sorted c)
    (hls : ∀ e ∈ ls, e.1 ∈ c.labels_posts.map Prod.fst) :
    ((priorLabels A ls max c).1, (priorLabels A ls max c).2.prediction) =
      pick A.gt (ls.map (fun e => (e.1, (calc_log_prior A e.1 c).1))) (max, c.prediction) ∧
    Reads c (priorLabels A ls max c).2 ∧
    (priorLabels A ls max c).2.c_label = c.c_label := by
  induction ls generalizing max c with
  | nil => exact ⟨rfl, reads_refl h, rfl⟩
  | cons it rest ih =>
    have hl := hls it (List.mem_cons_self _ _)
    obtain ⟨s2, s3, s4⟩ := calc_log_prior_reads A it.1 c h hl
    have hl' : it.1 ∈ (calc_log_prior A it.1 c).2.labels_posts.map Prod.fst := by
      rw [s2.labels]; exact hl
    obtain ⟨t2, t3, t4⟩ := calc_log_prior_reads A it.1 (calc_log_prior A it.1 c).2 s2.sorted hl'
    have hrest : ∀ (d : Classifier), Reads c d → ∀ e ∈ rest, e.1 ∈ d.labels_posts.map Prod.fst := by
      intro d hd e he
      rw [hd.labels]
      exact hls e (List.mem_cons_of_mem _ he)
    have hmap : ∀ (d : Classifier), Reads c d →
        rest.map (fun e => (e.1, (calc_log_prior A e.1 d).1)) =
          rest.map (fun e => (e.1, (calc_log_prior A e.1 c).1)) := by
      intro d hd
      apply List.map_congr_left
      intro e _
      rw [calc_log_prior_congr A e.1 hd]
    simp only [priorLabels, List.map_cons, pick]
    by_cases hg : A.gt (calc_log_prior A it.1 c).1 max = true
    · rw [if_pos hg, if_pos hg]
      have hr := reads_set_prediction (reads_trans s2 t2) it.1
      obtain ⟨i1, i2, i3⟩ := ih (calc_log_prior A it.1 (calc_log_prior A it.1 c).2).1
        { (calc_log_prior A it.1 (calc_log_prior A it.1 c).2).2 with prediction := it.1 }
        hr.sorted (hrest _ hr)
      refine ⟨?_, reads_trans hr i2, i3.trans (t4.trans s4)⟩
      rw [i1, hmap _ hr, calc_log_prior_congr A it.1 s2]
    · rw [if_neg hg, if_neg hg]
      obtain ⟨i1, i2, i3⟩ := ih max (calc_log_prior A it.1 c).2 s2.sorted (hrest _ s2)
      refine ⟨?_, reads_trans s2 i2, i3.trans s4⟩
      rw [i1, hmap _ s2, s3]

/-! ## Prediction: one record -/

theorem labelScores_congr {F : Type} (A : Arith F) (content : Str) {c c' : Classifier}
    (h : Reads c c') : labelScores A c' content = labelScores A c content := by
  unfold labelScores
  rw [h.labels]
  apply List.map_congr_left
  intro e _
  rw [totalScore_congr A e.1 _ h]

theorem labelPriors_congr {F : Type} (A : Arith F) {c c' : Classifier}
    (h : Reads c c') : labelPriors A c' = labelPriors A c := by
  unfold labelPriors
  rw [h.labels]
  apply List.map_congr_left
  intro e _
  rw [calc_log_prior_congr A e.1 h]

theorem mem_keys_self (c : Classifier) : ∀ e ∈ c.labels_posts, e.1 ∈ c.labels_posts.map Prod.fst :=
  fun _ he => List.mem_map_of_mem _ he

theorem find_probability_spec {F : Type} (A : Arith F) (count : Nat) (line temp : Str)
    (max : F) (c : Classifier) (h : Sorted c) :
    Reads c (find_probability A count line temp max c).c ∧
    ((count : Int) = c.content_col →
      ((find_probability A count line temp max c).max,
        (find_probability A count line temp max c).c.prediction) =
          pick A.gt (labelScores A c line) (max, c.prediction) ∧
      (find_probability A count line temp max c).temp = line) ∧
    ((count : Int) ≠ c.content_col →
      (find_probability A count line temp max c).max = max ∧
      (find_probability A count line temp max c).c.prediction = c.prediction ∧
      (find_probability A count line temp max c).temp = temp) ∧
    ((count : Int) = c.label_col →
      (find_probability A count line temp max c).c.c_label = line ∧
      (find_probability A count line temp max c).printed = some line) ∧
    ((count : Int) ≠ c.label_col →
      (find_probability A count line temp max c).c.c_label = c.c_label ∧
      (find_probability A count line temp max c).printed = none) := by
  -- the classifier after the label column has been handled
  obtain ⟨c1, hc1, hr1, hp1, hl1⟩ : ∃ c1 : Classifier,
      c1 = (if decide ((count : Int) = c.label_col) = true
        then { c with c_label := line } else c) ∧
      Reads c c1 ∧ c1.prediction = c.prediction ∧
      c1.c_label = (if (count : Int) = c.label_col then line else c.c_label) := by
    refine ⟨_, rfl, ?_, ?_, ?_⟩
    · split_ifs
      · exact reads_set_c_label (reads_refl h) line
      · exact reads_refl h
    · split_ifs <;> rfl
    · by_cases hl : (count : Int) = c.label_col
      · simp [hl]
      · simp [hl]
  obtain ⟨p1, p2, p3⟩ := scoreLabels_pick A (unique_words line) c1.labels_posts max c1
    hr1.sorted (mem_keys_self c1)
  have hprinted : (if decide ((count : Int) = c.label_col) = true then some line else none) =
      (if (count : Int) = c.label_col then some line else none) := by
    by_cases hl : (count : Int) = c.label_col
    · simp [hl]
    · simp [hl]
  unfold find_probability
  simp only []
  rw [← hc1, hprinted]
  by_cases hc : (count : Int) = c.content_col
  · have hc' : (count : Int) = c1.content_col := by rw [hr1.content_col]; exact hc
    rw [if_pos hc']
    refine ⟨reads_trans hr1 p2, fun _ => ⟨?_, rfl⟩, fun hn => absurd hc hn, ?_, ?_⟩
    · have := labelScores_congr A line hr1
      unfold labelScores at this
      rw [p1, this, hp1]
      rfl
    · intro hl
      exact ⟨by rw [p3, hl1, if_pos hl], by rw [if_pos hl]⟩
    · intro hl
      exact ⟨by rw [p3, hl1, if_neg hl], by rw [if_neg hl]⟩
  · have hc' : ¬ (count : Int) = c1.content_col := by rw [hr1.content_col]; exact hc
    rw [if_neg hc']
    refine ⟨hr1, fun hn => absurd hn hc, fun _ => ⟨rfl, hp1, rfl⟩, ?_, ?_⟩
    · intro hl
      exact ⟨by rw [hl1, if_pos hl], by rw [if_pos hl]⟩
    · intro hl
      exact ⟨by rw [hl1, if_neg hl], by rw [if_neg hl]⟩

theorem predictFields_spec {F : Type} (A : Arith F) (fields : List Str) (count : Nat)
    (s : Found F) (h : Sorted s.c) :
    (predictFields A fields count s).1 = count + fields.length ∧
    Reads s.c (predictFields A fields count s).2.c ∧
    (∀ content, fieldFrom fields count s.c.content_col = some content →
      ((predictFields A fields count s).2.max, (predictFields A fields count s).2.c.prediction) =
        pick A.gt (labelScores A s.c content) (s.max, s.c.prediction) ∧
      (predictFields A fields count s).2.temp = content) ∧
    (fieldFrom fields count s.c.content_col = none →
      (predictFields A fields count s).2.max = s.max ∧
      (predictFields A fields count s).2.c.prediction = s.c.prediction ∧
      (predictFields A fields count s).2.temp = s.temp) ∧
    (∀ l, fieldFrom fields count s.c.label_col = some l →
      (predictFields A fields count s).2.c.c_label = l ∧
      (predictFields A fields count s).2.printed = some l) ∧
    (fieldFrom fields count s.c.label_col = none →
      (predictFields A fields count s).2.c.c_label = s.c.c_label ∧
      (predictFields A fields count s).2.printed = s.printed) := by
  induction fields generalizing count s with
  | nil =>
    refine ⟨rfl, reads_refl h, ?_, fun _ => ⟨rfl, rfl, rfl⟩, ?_, fun _ => ⟨rfl, rfl⟩⟩
    · intro content hc
      rw [fieldFrom_nil] at hc
      exact Option.noConfusion hc
    · intro l hl
      rw [fieldFrom_nil] at hl
      exact Option.noConfusion hl
  | cons line rest ih =>
    obtain ⟨f1, f2, f3, f4, f5⟩ := find_probability_spec A count line s.temp s.max s.c h
    obtain ⟨i1, i2, i3, i4, i5, i6⟩ := ih (count + 1)
      { find_probability A count line s.temp s.max s.c with
        printed := (find_probability A count line s.temp s.max s.c).printed.orElse
          (fun _ => s.printed) } f1.sorted
    simp only [predictFields]
    simp only [] at i1 i2 i3 i4 i5 i6
    refine ⟨?_, reads_trans f1 i2, ?_, ?_, ?_, ?_⟩
    · rw [i1, List.length_cons]; omega
    · intro content hc
      by_cases hcc : (count : Int) = s.c.content_col
      · rw [fieldFrom_cons_eq _ _ _ _ hcc, Option.some.injEq] at hc
        subst hc
        have hnone := fieldFrom_succ_none rest count _ hcc
        rw [← f1.content_col] at hnone
        obtain ⟨j1, j2, j3⟩ := i4 hnone
        obtain ⟨g1, g2⟩ := f2 hcc
        rw [j1, j2, j3]
        exact ⟨g1, g2⟩
      · rw [fieldFrom_cons_ne _ _ _ _ hcc, ← f1.content_col] at hc
        obtain ⟨j1, j2⟩ := i3 content hc
        obtain ⟨g1, g2, _⟩ := f3 hcc
        refine ⟨?_, j2⟩
        rw [j1, labelScores_congr A content f1, g1, g2]
    · intro hc
      by_cases hcc : (count : Int) = s.c.content_col
      · rw [fieldFrom_cons_eq _ _ _ _ hcc] at hc
        exact Option.noConfusion hc
      · rw [fieldFrom_cons_ne _ _ _ _ hcc, ← f1.content_col] at hc
        obtain ⟨j1, j2, j3⟩ := i4 hc
        obtain ⟨g1, g2, g3⟩ := f3 hcc
        exact ⟨j1.trans g1, j2.trans g2, j3.trans g3⟩
    · intro l hl
      by_cases hll : (count : Int) = s.c.label_col
      · rw [fieldFrom_cons_eq _ _ _ _ hll, Option.some.injEq] at hl
        subst hl
        have hnone := fieldFrom_succ_none rest count _ hll
        rw [← f1.label_col] at hnone
        obtain ⟨j1, j2⟩ := i6 hnone
        obtain ⟨g1, g2⟩ := f4 hll
        rw [j1, j2, g2]
        exact ⟨g1, rfl⟩
      · rw [fieldFrom_cons_ne _ _ _ _ hll, ← f1.label_col] at hl
        exact i5 l hl
    · intro hl
      by_cases hll : (count : Int) = s.c.label_col
      · rw [fieldFrom_cons_eq _ _ _ _ hll] at hl
        exact Option.noConfusion hl
      · rw [fieldFrom_cons_ne _ _ _ _ hll, ← f1.label_col] at hl
        obtain ⟨j1, j2⟩ := i6 hl
        obtain ⟨g1, g2⟩ := f5 hll
        rw [j1, j2, g2]
        exact ⟨g1, rfl⟩

theorem predictRow_reads {F : Type} (A : Arith F) (c : Classifier) (row : Str) (h : Sorted c) :
    Reads c (predictRow A c row).2 := by
  obtain ⟨_, i2, _⟩ := predictFields_spec A (getlines ',' row) 0
    { printed := none, temp := [], max := A.lowest, c := c } h
  unfold predictRow
  simp only []
  split_ifs
  · exact reads_trans i2 (priorLabels_pick A _ _ _ i2.sorted (mem_keys_self _)).2.1
  · exact i2

theorem predictRow_label {F : Type} (A : Arith F) (c : Classifier) (row : Str) (h : Sorted c) :
    (predictRow A c row).1.correct = fieldAt c.label_col row ∧
    (predictRow A c row).2.c_label = (fieldAt c.label_col row).getD c.c_label ∧
    (predictRow A c row).2.prediction = (predictRow A c row).1.predicted ∧
    (predictRow A c row).1.hit =
      decide ((predictRow A c row).1.predicted = (fieldAt c.label_col row).getD c.c_label) := by
  obtain ⟨_, i2, _, _, i5, i6⟩ := predictFields_spec A (getlines ',' row) 0
    { printed := none, temp := [], max := A.lowest, c := c } h
  simp only [] at i5 i6
  have hlab : (predictFields A (getlines ',' row) 0
        { printed := none, temp := [], max := A.lowest, c := c }).2.c.c_label =
        (fieldAt c.label_col row).getD c.c_label ∧
      (predictFields A (getlines ',' row) 0
        { printed := none, temp := [], max := A.lowest, c := c }).2.printed =
        fieldAt c.label_col row := by
    rw [fieldAt_eq_fieldFrom]
    cases hf : fieldFrom (getlines ',' row) 0 c.label_col with
    | none => exact i6 hf
    | some l => exact i5 l hf
  have hc : (predictRow A c row).2.c_label = (fieldAt c.label_col row).getD c.c_label := by
    unfold predictRow
    simp only []
    split_ifs
    · rw [(priorLabels_pick A _ _ _ i2.sorted (mem_keys_self _)).2.2]
      exact hlab.1
    · exact hlab.1
  refine ⟨?_, hc, rfl, ?_⟩
  · unfold predictRow
    exact hlab.2
  · rw [← hc]
    rfl

theorem predictRow_many {F : Type} (A : Arith F) (c : Classifier) (row : Str) (h : Sorted c)
    (hn : (getlines ',' row).length ≠ 1) :
    (∀ content, fieldAt c.content_col row = some content →
      ((predictRow A c row).1.score, (predictRow A c row).1.predicted) =
        pick A.gt (labelScores A c content) (A.lowest, c.prediction) ∧
      (predictRow A c row).1.content = content) ∧
    (fieldAt c.content_col row = none →
      (predictRow A c row).1.score = A.lowest ∧
      (predictRow A c row).1.predicted = c.prediction ∧
      (predictRow A c row).1.content = []) := by
  obtain ⟨i1, _, i3, i4, _, _⟩ := predictFields_spec A (getlines ',' row) 0
    { printed := none, temp := [], max := A.lowest, c := c } h
  simp only [Nat.zero_add] at i1 i3 i4
  have hne : ¬ (predictFields A (getlines ',' row) 0
      { printed := none, temp := [], max := A.lowest, c := c }).1 = 1 := by
    rw [i1]; exact hn
  rw [fieldAt_eq_fieldFrom]
  unfold predictRow
  simp only [if_neg hne]
  exact ⟨i3, i4⟩

theorem predictRow_single {F : Type} (A : Arith F) (c : Classifier) (row : Str) (h : Sorted c)
    (hn : (getlines ',' row).length = 1) :
    (∀ content, fieldAt c.content_col row = some content →
      ((predictRow A c row).1.score, (predictRow A c row).1.predicted) =
        pick A.gt (labelPriors A c) (pick A.gt (labelScores A c content) (A.lowest, c.prediction)) ∧
      (predictRow A c row).1.content = content) ∧
    (fieldAt c.content_col row = none →
      ((predictRow A c row).1.score, (predictRow A c row).1.predicted) =
        pick A.gt (labelPriors A c) (A.lowest, c.prediction) ∧
      (predictRow A c row).1.content = []) := by
  obtain ⟨i1, i2, i3, i4, _, _⟩ := predictFields_spec A (getlines ',' row) 0
    { printed := none, temp := [], max := A.lowest, c := c } h
  simp only [Nat.zero_add] at i1 i3 i4
  have hone : (predictFields A (getlines ',' row) 0
      { printed := none, temp := [], max := A.lowest, c := c }).1 = 1 := by
    rw [i1]; exact hn
  obtain ⟨p1, _, _⟩ := priorLabels_pick A
    (predictFields A (getlines ',' row) 0
      { printed := none, temp := [], max := A.lowest, c := c }).2.c.labels_posts
    (predictFields A (getlines ',' row) 0
      { printed := none, temp := [], max := A.lowest, c := c }).2.max
    (predictFields A (getlines ',' row) 0
      { printed := none, temp := [], max := A.lowest, c := c }).2.c i2.sorted (mem_keys_self _)
  have hp := labelPriors_congr A i2
  unfold labelPriors at hp
  rw [hp] at p1
  rw [fieldAt_eq_fieldFrom]
  unfold predictRow
  simp only [if_pos hone]
  constructor
  · intro content hc
    obtain ⟨j1, j2⟩ := i3 content hc
    refine ⟨?_, j2⟩
    rw [p1, ← j1]
    rfl
  · intro hc
    obtain ⟨j1, j2, j3⟩ := i4 hc
    refine ⟨?_, j3⟩
    rw [p1, j1, j2]
    rfl

/-! ## Prediction: the running maximum -/

theorem weakOrderOn_mono {F : Type} {gt : F → F → Bool} {vs ws : List F}
    (h : WeakOrderOn gt vs) (hs : ∀ x ∈ ws, x ∈ vs) : WeakOrderOn gt ws :=
  ⟨fun a ha b hb c hc => h.trans a (hs a ha) b (hs b hb) c (hs c hc),
    fun a ha b hb c hc => h.negtrans a (hs a ha) b (hs b hb) c (hs c hc)⟩

theorem pick_spec {F : Type} (gt : F → F → Bool) (ls : List (Str × F)) (best : F × Str)
    (ho : WeakOrderOn gt (best.1 :: ls.map Prod.snd)) :
    (pick gt ls best = best ∧ ∀ e ∈ ls, gt e.2 best.1 = false) ∨
    (∃ pre post, ls = pre ++ ((pick gt ls best).2, (pick gt ls best).1) :: post ∧
      gt (pick gt ls best).1 best.1 = true ∧
      (∀ e ∈ pre, gt (pick gt ls best).1 e.2 = true) ∧
      (∀ e ∈ post, gt e.2 (pick gt ls best).1 = false)) := by
  induction ls generalizing best with
  | nil =>
    left
    refine ⟨rfl, ?_⟩
    intro e he
    simp at he
  | cons x rest ih =>
    obtain ⟨l, s⟩ := x
    have hs_mem : s ∈ best.1 :: ((l, s) :: rest).map Prod.snd :=
      List.mem_cons_of_mem _ (List.mem_cons_self s _)
    have hb_mem : best.1 ∈ best.1 :: ((l, s) :: rest).map Prod.snd :=
      List.mem_cons_self _ _
    have hrest_mem : ∀ e ∈ rest, e.2 ∈ best.1 :: ((l, s) :: rest).map Prod.snd := by
      intro e he
      simp only [List.map_cons, List.mem_cons, List.mem_map]
      exact Or.inr (Or.inr ⟨e, he, rfl⟩)
    simp only [pick]
    by_cases hg : gt s best.1 = true
    · rw [if_pos hg]
      have ho' : WeakOrderOn gt ((s, l).1 :: rest.map Prod.snd) := by
        apply weakOrderOn_mono ho
        intro x hx
        simp only [List.mem_cons, List.mem_map] at hx
        rcases hx with hx | ⟨e, he, hx⟩
        · rw [hx]; exact hs_mem
        · rw [← hx]; exact hrest_mem e he
      right
      rcases ih (s, l) ho' with ⟨h1, h2⟩ | ⟨pre, post, h1, h2, h3, h4⟩
      · refine ⟨[], rest, ?_, ?_, ?_, ?_⟩
        · rw [h1]; rfl
        · rw [h1]; exact hg
        · intro e he
          simp at he
        · rw [h1]; exact h2
      · have hm : (pick gt rest (s, l)).1 ∈ best.1 :: ((l, s) :: rest).map Prod.snd := by
          have : ((pick gt rest (s, l)).2, (pick gt rest (s, l)).1) ∈
              pre ++ ((pick gt rest (s, l)).2, (pick gt rest (s, l)).1) :: post := by simp
          rw [← h1] at this
          exact hrest_mem _ this
        refine ⟨(l, s) :: pre, post, ?_, ?_, ?_, h4⟩
        · rw [List.cons_append, ← h1]
        · exact ho.trans _ hm _ hs_mem _ hb_mem h2 hg
        · intro e he
          simp only [List.mem_cons] at he
          rcases he with he | he
          · rw [he]; exact h2
          · exact h3 e he
    · rw [if_neg hg]
      have hg' : gt s best.1 = false := by simpa using hg
      have ho' : WeakOrderOn gt (best.1 :: rest.map Prod.snd) := by
        apply weakOrderOn_mono ho
        intro x hx
        simp only [List.mem_cons, List.mem_map] at hx
        rcases hx with hx | ⟨e, he, hx⟩
        · rw [hx]; exact hb_mem
        · rw [← hx]; exact hrest_mem e he
      rcases ih best ho' with ⟨h1, h2⟩ | ⟨pre, post, h1, h2, h3, h4⟩
      · left
        refine ⟨h1, ?_⟩
        intro e he
        simp only [List.mem_cons] at he
        rcases he with he | he
        · rw [he]; exact hg'
        · exact h2 e he
      · right
        have hm : (pick gt rest best).1 ∈ best.1 :: ((l, s) :: rest).map Prod.snd := by
          have : ((pick gt rest best).2, (pick gt rest best).1) ∈
              pre ++ ((pick gt rest best).2, (pick gt rest best).1) :: post := by simp
          rw [← h1] at this
          exact hrest_mem _ this
        refine ⟨(l, s) :: pre, post, ?_, h2, ?_, h4⟩
        · rw [List.cons_append, ← h1]
        · intro e he
          simp only [List.mem_cons] at he
          rcases he with he | he
          · rw [he]
            by_contra hc
            have hc' : gt (pick gt rest best).1 s = false := by simpa using hc
            have := ho.negtrans _ hm _ hs_mem _ hb_mem hc' hg'
            rw [h2] at this
            exact Bool.noConfusion this
          · exact h3 e he

/-- What `predict` emits for a record with a content field and a number of
fields other than one: when the comparison orders the total
log-probabilities of the labels and `lowest()`, and some label is above
`lowest()`, the score emitted is the total of the label emitted, every
label before it in `labels_posts` has a strictly smaller total, and no label
after it has a greater one. -/
theorem predictRow_argmax {F : Type} (A : Arith F) (c : Classifier) (row content : Str)
    (h : Sorted c) (hn : (getlines ',' row).length ≠ 1)
    (hc : fieldAt c.content_col row = some content)
    (ho : WeakOrderOn A.gt (A.lowest :: (labelScores A c content).map Prod.snd))
    (hex : ∃ e ∈ labelScores A c content, A.gt e.2 A.lowest = true) :
    ∃ pre post,
      labelScores A c content =
        pre ++ ((predictRow A c row).1.predicted, (predictRow A c row).1.score) :: post ∧
      (∀ e ∈ pre, A.gt (predictRow A c row).1.score e.2 = true) ∧
      (∀ e ∈ post, A.gt e.2 (predictRow A c row).1.score = false) := by
  obtain ⟨h1, _⟩ := (predictRow_many A c row h hn).1 content hc
  have e1 : (predictRow A c row).1.score =
      (pick A.gt (labelScores A c content) (A.lowest, c.prediction)).1 := by rw [← h1]
  have e2 : (predictRow A c row).1.predicted =
      (pick A.gt (labelScores A c content) (A.lowest, c.prediction)).2 := by rw [← h1]
  rcases pick_spec A.gt (labelScores A c content) (A.lowest, c.prediction) ho with
    ⟨_, h3⟩ | ⟨pre, post, h2, _, h4, h5⟩
  · obtain ⟨e, he, hg⟩ := hex
    rw [h3 e he] at hg
    exact Bool.noConfusion hg
  · exact ⟨pre, post, by rw [e1, e2]; exact h2, by rw [e1]; exact h4, by rw [e1]; exact h5⟩

/-! ## Prediction: a whole file -/

theorem sameCounts_of_reads {c c' : Classifier} (h : Reads c c') : SameCounts c c' :=
  ⟨h.total, h.labels, h.words, h.pairs⟩

theorem sameCounts_trans {a b c : Classifier} (h1 : SameCounts a b) (h2 : SameCounts b c) :
    SameCounts a c :=
  ⟨h2.total.trans h1.total, h2.labels.trans h1.labels, fun w => (h2.words w).trans (h1.words w),
    fun p => (h2.pairs p).trans (h1.pairs p)⟩

theorem sameCounts_afterHeader (test : Str) (c : Classifier) :
    SameCounts c (afterHeader test c) := by
  have f := colsLoop_frame (getlines ',' (readHeader test).1) 0 c
  unfold afterHeader
  exact ⟨f.1, f.2.2.2.1, fun w => by rw [f.2.2.1], fun p => by rw [f.2.2.2.2.1]⟩

theorem sorted_afterHeader (test : Str) (c : Classifier) (h : Sorted c) :
    Sorted (afterHeader test c) := by
  have f := colsLoop_frame (getlines ',' (readHeader test).1) 0 c
  unfold afterHeader
  refine ⟨?_, ?_, ?_⟩
  · rw [f.2.2.1]; exact h.words_asc
  · rw [f.2.2.2.1]; exact h.labels_asc
  · rw [f.2.2.2.2.1]; exact h.pairs_asc

theorem calc_log_prior_sameCounts {F : Type} (A : Arith F) (label : Str) {c c' : Classifier}
    (h : SameCounts c c') : (calc_log_prior A label c').1 = (calc_log_prior A label c).1 := by
  simp only [calc_log_prior, h.labels, h.total]

theorem calc_log_likelihood_sameCounts {F : Type} (A : Arith F) (label word : Str)
    {c c' : Classifier} (h : SameCounts c c') :
    (calc_log_likelihood A label word c').1 = (calc_log_likelihood A label word c).1 := by
  unfold calc_log_likelihood
  simp only [h.words, h.pairs, h.labels, h.total]
  split_ifs <;> rfl

theorem totalScore_sameCounts {F : Type} (A : Arith F) (label : Str) (words : List Str)
    {c c' : Classifier} (h : SameCounts c c') :
    totalScore A c' label words = totalScore A c label words := by
  unfold totalScore
  rw [calc_log_prior_sameCounts A label h]
  congr 1
  funext p w
  rw [calc_log_likelihood_sameCounts A label w h]

theorem labelScores_sameCounts {F : Type} (A : Arith F) (content : Str) {c c' : Classifier}
    (h : SameCounts c c') : labelScores A c' content = labelScores A c content := by
  unfold labelScores
  rw [h.labels]
  apply List.map_congr_left
  intro e _
  rw [totalScore_sameCounts A e.1 _ h]

theorem labelPriors_sameCounts {F : Type} (A : Arith F) {c c' : Classifier}
    (h : SameCounts c c') : labelPriors A c' = labelPriors A c := by
  unfold labelPriors
  rw [h.labels]
  apply List.map_congr_left
  intro e _
  rw [calc_log_prior_sameCounts A e.1 h]

theorem predictRows_forall {F : Type} (A : Arith F) (P : Str → Emitted F → Prop)
    (rows : List Str) (c : Classifier) (h : Sorted c)
    (hP : ∀ c', Reads c c' → ∀ row ∈ rows, P row (predictRow A c' row).1) :
    List.Forall₂ P rows (predictRows A rows c).1 := by
  induction rows generalizing c with
  | nil => exact List.Forall₂.nil
  | cons row rest ih =>
    simp only [predictRows]
    have hr := predictRow_reads A c row h
    refine List.Forall₂.cons (hP c (reads_refl h) row (List.mem_cons_self _ _)) ?_
    apply ih _ hr.sorted
    intro c' hc' r hr'
    exact hP c' (reads_trans hr hc') r (List.mem_cons_of_mem _ hr')

theorem predictRows_reads {F : Type} (A : Arith F) (rows : List Str) (c : Classifier)
    (h : Sorted c) : Reads c (predictRows A rows c).2 := by
  induction rows generalizing c with
  | nil => exact reads_refl h
  | cons row rest ih =>
    simp only [predictRows]
    have hr := predictRow_reads A c row h
    exact reads_trans hr (ih _ hr.sorted)

theorem predict_records {F : Type} (A : Arith F) (test : Str) (c : Classifier) :
    (predict A test c).1.records = (predictRows A (dataRows test) (afterHeader test c)).1 := by
  unfold predict afterHeader
  simp only []
  rw [getlines_readHeader]

theorem predict_forall {F : Type} (A : Arith F) (P : Str → Emitted F → Prop)
    (test : Str) (c : Classifier) (h : Sorted c)
    (hP : ∀ c', Reads (afterHeader test c) c' → ∀ row ∈ dataRows test,
      P row (predictRow A c' row).1) :
    List.Forall₂ P (dataRows test) (predict A test c).1.records := by
  rw [predict_records]
  exact predictRows_forall A P _ _ (sorted_afterHeader test c h) hP

/-! ## The prediction scenario -/

theorem scenario_scores :
    labelScores exactArith (train scenarioTrain Classifier.init) "go team".toList =
      [("news".toList, Exact.ln 1 8), ("sports".toList, Exact.ln 1 2)] ∧
    labelPriors exactArith (train scenarioTrain Classifier.init) =
      [("news".toList, Exact.ln 1 2), ("sports".toList, Exact.ln 1 2)] := by
  decide

theorem scenario_records :
    (predict exactArith scenarioTest (train scenarioTrain Classifier.init)).1.records.map
        (fun e => (e.correct, e.predicted, e.score, e.content)) =
      [(some "sports".toList, "sports".toList, Exact.ln 1 2, "go team".toList),
       (some "news".toList, "sports".toList, Exact.ln 1 2, "go team".toList)] ∧
    (predict exactArith scenarioTestContentFirst
        (train scenarioTrain Classifier.init)).1.records.map
        (fun e => (e.correct, e.predicted, e.score, e.content)) =
      [(none, "sports".toList, Exact.ln 1 2, "go team".toList),
       (some "news".toList, "sports".toList, Exact.ln 1 2, "go team".toList)] := by
  decide

theorem scenario_row (c : Classifier) (hc : SameCounts (train scenarioTrain Classifier.init) c)
    (hs : Sorted c) (row : Str) (hf : fieldAt c.content_col row = some "go team".toList) :
    (predictRow exactArith c row).1.predicted = "sports".toList ∧
    (predictRow exactArith c row).1.score = Exact.ln 1 2 := by
  have hL := labelScores_sameCounts exactArith "go team".toList hc
  have hP := labelPriors_sameCounts exactArith hc
  rw [scenario_scores.1] at hL
  rw [scenario_scores.2] at hP
  by_cases hn : (getlines ',' row).length = 1
  · obtain ⟨h1, _⟩ := (predictRow_single exactArith c row hs hn).1 _ hf
    rw [hL, hP] at h1
    have h2 : pick exactArith.gt [("news".toList, Exact.ln 1 2), ("sports".toList, Exact.ln 1 2)]
        (pick exactArith.gt [("news".toList, Exact.ln 1 8), ("sports".toList, Exact.ln 1 2)]
          (exactArith.lowest, c.prediction)) = (Exact.ln 1 2, "sports".toList) := rfl
    rw [h2] at h1
    exact ⟨congrArg Prod.snd h1, congrArg Prod.fst h1⟩
  · obtain ⟨h1, _⟩ := (predictRow_many exactArith c row hs hn).1 _ hf
    rw [hL] at h1
    have h2 : pick exactArith.gt [("news".toList, Exact.ln 1 8), ("sports".toList, Exact.ln 1 2)]
        (exactArith.lowest, c.prediction) = (Exact.ln 1 2, "sports".toList) := rfl
    rw [h2] at h1
    exact ⟨congrArg Prod.snd h1, congrArg Prod.fst h1⟩

/-- Claim C10: after training on the scenario file, the content `go team`
gets the total log-probability `log(1/2)` for the label sports and
`log(1/8)` for the label news, the first being strictly higher; and for
every test file, every record whose field in the content column is
`go team` is emitted by `predict` with the label sports and the score
`log(1/2)`.  The two test files of the scenario show such records, for
either order of the columns. -/
theorem predict_scenario (test : Str) :
    labelScores exactArith (train scenarioTrain Classifier.init) "go team".toList =
      [("news".toList, Exact.ln 1 8), ("sports".toList, Exact.ln 1 2)] ∧
    exactArith.gt (Exact.ln 1 2) (Exact.ln 1 8) = true ∧
    List.Forall₂
      (fun row e =>
        fieldAt (afterHeader test (train scenarioTrain Classifier.init)).content_col row =
            some "go team".toList →
          e.predicted = "sports".toList ∧ e.score = Exact.ln 1 2)
      (dataRows test)
      (predict exactArith test (train scenarioTrain Classifier.init)).1.records ∧
    (predict exactArith scenarioTest (train scenarioTrain Classifier.init)).1.records.map
        (fun e => (e.correct, e.predicted, e.score, e.content)) =
      [(some "sports".toList, "sports".toList, Exact.ln 1 2, "go team".toList),
       (some "news".toList, "sports".toList, Exact.ln 1 2, "go team".toList)] ∧
    (predict exactArith scenarioTestContentFirst
        (train scenarioTrain Classifier.init)).1.records.map
        (fun e => (e.correct, e.predicted, e.score, e.content)) =
      [(none, "sports".toList, Exact.ln 1 2, "go team".toList),
       (some "news".toList, "sports".toList, Exact.ln 1 2, "go team".toList)] := by
  have hT : Sorted (train scenarioTrain Classifier.init) :=
    sorted_of_wf (wf_train _ _ wf_init)
  refine ⟨scenario_scores.1, rfl, ?_, scenario_records.1, scenario_records.2⟩
  apply predict_forall exactArith _ test _ hT
  intro c' hc' row _ hf
  rw [← hc'.content_col] at hf
  exact scenario_row c'
    (sameCounts_trans (sameCounts_afterHeader test _) (sameCounts_of_reads hc')) hc'.sorted row hf

/-- An instance of `predictRow_argmax`: the record `news,go team` after
training on the scenario file. -/
theorem predictRow_argmax_scenario :
    ∃ pre post,
      labelScores exactArith (train scenarioTrain Classifier.init) "go team".toList =
        pre ++ ((predictRow exactArith (train scenarioTrain Classifier.init)
            "news,go team".toList).1.predicted,
          (predictRow exactArith (train scenarioTrain Classifier.init)
            "news,go team".toList).1.score) :: post ∧
      (∀ e ∈ pre, exactArith.gt (predictRow exactArith (train scenarioTrain Classifier.init)
        "news,go team".toList).1.score e.2 = true) ∧
      (∀ e ∈ post, exactArith.gt e.2 (predictRow exactArith (train scenarioTrain Classifier.init)
        "news,go team".toList).1.score = false) :=
  predictRow_argmax exactArith (train scenarioTrain Classifier.init) "news,go team".toList
    "go team".toList (sorted_of_wf (wf_train _ _ wf_init)) (by decide) (by decide)
    ⟨by decide, by decide⟩ ⟨("sports".toList, Exact.ln 1 2), by decide, by decide⟩

/-! ## The driver -/

theorem check_args_iff (argv : List Str) :
    check_args argv = true ↔
      (argv.length ≠ 3 ∧ argv.length ≠ 4) ∨
      (argv.length = 4 ∧ argv.getD 3 [] ≠ "--debug".toList) := by
  unfold check_args
  by_cases h1 : argv.length ≠ 3 ∧ argv.length ≠ 4
  · simp [h1]
  · rw [if_neg h1]
    by_cases h2 : argv.length = 4 ∧ argv.getD 3 [] ≠ "--debug".toList
    · simp [h2]
    · rw [if_neg h2]
      simp only [Bool.false_eq_true, false_iff, not_or]
      exact ⟨h1, h2⟩

theorem check_files_iff (fs : Str → Option Str) (argv : List Str) :
    (check_files fs argv).1 = true ↔
      fs (argv.getD 1 []) = none ∨ fs (argv.getD 2 []) = none := by
  unfold check_files
  cases h1 : fs (argv.getD 1 []) with
  | none => simp
  | some a =>
    cases h2 : fs (argv.getD 2 []) with
    | none => simp
    | some b => simp

/-- Claim C14: the program exits with code 1 exactly when the number of
arguments, the program name included, is neither 3 nor 4, or is 4 with a
fourth argument other than "--debug", and then it has opened no file;
otherwise it exits with code 2 exactly when the training file or the test
file cannot be opened for reading. -/
theorem main_exit_code {F : Type} (A : Arith F) (fs : Str → Option Str) (argv : List Str) :
    ((main A fs argv).code = 1 ↔
      (argv.length ≠ 3 ∧ argv.length ≠ 4) ∨
      (argv.length = 4 ∧ argv.getD 3 [] ≠ "--debug".toList)) ∧
    ((main A fs argv).code = 1 → (main A fs argv).opened = []) ∧
    (¬ ((argv.length ≠ 3 ∧ argv.length ≠ 4) ∨
        (argv.length = 4 ∧ argv.getD 3 [] ≠ "--debug".toList)) →
      ((main A fs argv).code = 2 ↔
        fs (argv.getD 1 []) = none ∨ fs (argv.getD 2 []) = none)) := by
  rw [← check_args_iff, ← check_files_iff fs argv]
  unfold main
  by_cases h1 : check_args argv = true
  · simp [h1]
  · simp only [h1, Bool.false_eq_true, if_false]
    by_cases h2 : (check_files fs argv).1 = true
    · simp [h2]
    · simp [h2]

/-! ## The columns -/

theorem lastPos_eq_none_iff (x : Str) (l : List Str) : lastPos x l = none ↔ x ∉ l := by
  induction l with
  | nil => simp [lastPos]
  | cons y ys ih =>
    simp only [lastPos, List.mem_cons, not_or]
    cases h : lastPos x ys with
    | some i =>
      have : ¬ (x ∉ ys) := fun hn => by rw [ih.2 hn] at h; exact Option.noConfusion h
      simp only [reduceCtorEq, false_iff, not_and]
      exact fun _ => this
    | none =>
      have hx := ih.1 h
      by_cases e : y = x
      · simp [e]
      · simp only [e, if_false, true_iff]
        exact ⟨fun e' => e e'.symm, hx⟩

theorem lastPos_get (x : Str) (l : List Str) (i : Nat) (h : lastPos x l = some i) :
    l.get? i = some x ∧ ∀ j, i < j → l.get? j ≠ some x := by
  induction l generalizing i with
  | nil => simp [lastPos] at h
  | cons y ys ih =>
    simp only [lastPos] at h
    cases h' : lastPos x ys with
    | some k =>
      rw [h'] at h
      simp only [Option.some.injEq] at h
      subst h
      obtain ⟨i1, i2⟩ := ih k h'
      refine ⟨i1, ?_⟩
      intro j hj
      obtain ⟨m, rfl⟩ : ∃ m, j = m + 1 := ⟨j - 1, by omega⟩
      exact i2 m (by omega)
    | none =>
      rw [h'] at h
      by_cases e : y = x
      · simp only [e, if_true, Option.some.injEq] at h
        subst h
        refine ⟨by simp [e], ?_⟩
        intro j hj
        obtain ⟨m, rfl⟩ : ∃ m, j = m + 1 := ⟨j - 1, by omega⟩
        intro hm
        have hx : x ∈ ys := List.get?_mem hm
        exact (lastPos_eq_none_iff x ys).1 h' hx
      · simp [e] at h

theorem colsLoop_cols (fields : List Str) (count : Nat) (c : Classifier) :
    (colsLoop fields count c).label_col =
      (match lastPos "tag".toList fields with
        | some i => ((count + i : Nat) : Int)
        | none => c.label_col) ∧
    (colsLoop fields count c).content_col =
      (match lastPos "content".toList fields with
        | some i => ((count + i : Nat) : Int)
        | none => c.content_col) := by
  induction fields generalizing count c with
  | nil => exact ⟨rfl, rfl⟩
  | cons line rest ih =>
    have step : colsLoop (line :: rest) count c = colsLoop rest (count + 1)
        (if line = "content".toList then
          { (if line = "tag".toList then { c with label_col := (count : Int) } else c) with
            content_col := (count : Int) }
         else (if line = "tag".toList then { c with label_col := (count : Int) } else c)) := rfl
    rw [step]
    generalize hc2 : (if line = "content".toList then
          { (if line = "tag".toList then { c with label_col := (count : Int) } else c) with
            content_col := (count : Int) }
         else (if line = "tag".toList then { c with label_col := (count : Int) } else c)) = c2
    have hl : c2.label_col = if line = "tag".toList then (count : Int) else c.label_col := by
      rw [← hc2]
      split_ifs <;> rfl
    have hcc : c2.content_col =
        if line = "content".toList then (count : Int) else c.content_col := by
      rw [← hc2]
      split_ifs <;> rfl
    obtain ⟨i1, i2⟩ := ih (count + 1) c2
    rw [i1, i2, hl, hcc]
    simp only [lastPos]
    constructor
    · cases lastPos "tag".toList rest with
      | some i => simp only []; congr 1; omega
      | none =>
        simp only []
        split_ifs
        · simp
        · rfl
    · cases lastPos "content".toList rest with
      | some i => simp only []; congr 1; omega
      | none =>
        simp only []
        split_ifs
        · simp
        · rfl

/-- Claim C17, as amended: the label column `predict` uses is the position
of the last field of the test header equal to "tag", as `get_cols` finds it
on a new classifier, when the test header has such a field, and the label
column left by training when it has none (where `get_cols` on a new
classifier gives 0); likewise for the content column and "content" (where it
gives -1). -/
theorem predict_columns (c : Classifier) (test : Str) :
    (afterHeader test c).label_col =
      (match lastPos "tag".toList (getlines ',' (readHeader test).1) with
        | some i => (i : Int)
        | none => c.label_col) ∧
    (afterHeader test c).content_col =
      (match lastPos "content".toList (getlines ',' (readHeader test).1) with
        | some i => (i : Int)
        | none => c.content_col) ∧
    labelCol test =
      (match lastPos "tag".toList (getlines ',' (readHeader test).1) with
        | some i => (i : Int)
        | none => 0) ∧
    contentCol test =
      (match lastPos "content".toList (getlines ',' (readHeader test).1) with
        | some i => (i : Int)
        | none => -1) := by
  have h1 := colsLoop_cols (getlines ',' (readHeader test).1) 0 c
  have h2 := colsLoop_cols (getlines ',' (readHeader test).1) 0 Classifier.init
  simp only [Nat.zero_add] at h1 h2
  exact ⟨h1.1, h1.2, h2.1, h2.2⟩

/-- Claim C17 fails as stated: after training on a file with header
`n,tag,content`, `predict` on a test file with header `title,body` uses the
label column 1 and the content column 2 of the training file, where
`get_cols` on a new classifier finds 0 and -1 in the test header. -/
theorem predict_columns_stale :
    (afterHeader unnamedTest (train shiftedTrain Classifier.init)).label_col = 1 ∧
    (afterHeader unnamedTest (train shiftedTrain Classifier.init)).content_col = 2 ∧
    labelCol unnamedTest = 0 ∧ contentCol unnamedTest = -1 ∧
    (predict exactArith unnamedTest (train shiftedTrain Classifier.init)).1.records.map
      (fun e => (e.correct, e.content)) = [(some "sports".toList, [])] := by
  decide

/-! ## Training: the two word counters agree -/

theorem pairSum_mapIncr (m : List ((Str × Str) × Nat)) (k : Str × Str) (w : Str) :
    pairSum (mapIncr pairLt m k) w = pairSum m w + if k.2 = w then 1 else 0 := by
  unfold mapIncr
  induction m with
  | nil =>
    by_cases h : k.2 = w <;> simp [mapUpd, pairSum, h]
  | cons e rest ih =>
    obtain ⟨k0, v0⟩ := e
    unfold pairSum at ih ⊢
    by_cases h1 : k = k0
    · subst h1
      by_cases h : k.2 = w
      · simp [mapUpd, h, List.filter_cons]; omega
      · simp [mapUpd, h, List.filter_cons]
    · by_cases h2 : pairLt k k0 = true
      · by_cases h : k.2 = w
        · by_cases h0 : k0.2 = w <;> simp [mapUpd, h1, h2, h, h0, List.filter_cons] <;> omega
        · by_cases h0 : k0.2 = w <;> simp [mapUpd, h1, h2, h, h0, List.filter_cons]
      · have hu : mapUpd pairLt (· + 1) ((k0, v0) :: rest) k =
            (k0, v0) :: mapUpd pairLt (· + 1) rest k := by simp [mapUpd, h1, h2]
        rw [hu]
        by_cases h0 : k0.2 = w
        · simp only [List.filter_cons, h0, decide_True, if_true, List.map_cons, List.sum_cons]
          rw [ih]; omega
        · simp only [List.filter_cons, h0, decide_False, Bool.false_eq_true, if_false]
          rw [ih]

theorem trainWord_words_labels_posts (label : Str) (c : Classifier) (it : Str) :
    (trainWord label c it).words_labels_posts =
      mapIncr pairLt c.words_labels_posts (label, it) := by
  simp only [trainWord, increment_vocab]
  split_ifs <;> rfl

theorem balanced_trainWord (label : Str) (c : Classifier) (it : Str) (h : Wf c)
    (hb : ∀ w, pairSum c.words_labels_posts w = mapGet c.words_posts w) :
    ∀ w, pairSum (trainWord label c it).words_labels_posts w =
      mapGet (trainWord label c it).words_posts w := by
  intro w
  rw [trainWord_words_labels_posts, trainWord_words_posts, pairSum_mapIncr,
    mapGet_mapIncr strLt_strictTotal _ _ _ h.words_asc, hb w]
  by_cases e : it = w
  · simp [e]
  · have e' : ¬ w = it := fun x => e x.symm
    simp [e, e']

theorem balanced_trainWords (label : Str) (words : List Str) (c : Classifier) (h : Wf c)
    (hb : ∀ w, pairSum c.words_labels_posts w = mapGet c.words_posts w) :
    ∀ w, pairSum (words.foldl (trainWord label) c).words_labels_posts w =
      mapGet (words.foldl (trainWord label) c).words_posts w := by
  induction words generalizing c with
  | nil => exact hb
  | cons x xs ih => exact ih _ (wf_trainWord label c x h) (balanced_trainWord label c x h hb)

theorem balanced_trainFields (fields : List Str) (count : Nat) (label : Str) (c : Classifier)
    (h : Wf c) (hb : ∀ w, pairSum c.words_labels_posts w = mapGet c.words_posts w) :
    ∀ w, pairSum (trainFields fields count label c).words_labels_posts w =
      mapGet (trainFields fields count label c).words_posts w := by
  induction fields generalizing count label c with
  | nil => exact hb
  | cons line rest ih =>
    simp only [trainFields]
    by_cases hl : (count : Int) = c.label_col
    · simp only [hl, decide_True, if_true]
      split_ifs
      · exact ih _ _ _ (wf_trainWords _ _ _ (wf_incrLabel c line h))
          (balanced_trainWords _ _ _ (wf_incrLabel c line h) hb)
      · exact ih _ _ _ (wf_incrLabel c line h) hb
    · simp only [hl, decide_False, Bool.false_eq_true, if_false]
      split_ifs
      · exact ih _ _ _ (wf_trainWords _ _ _ h) (balanced_trainWords _ _ _ h hb)
      · exact ih _ _ _ h hb

theorem balanced_trainRows (rows : List Str) (c : Classifier) (h : Wf c)
    (hb : ∀ w, pairSum c.words_labels_posts w = mapGet c.words_posts w) :
    ∀ w, pairSum (rows.foldl trainRow c).words_labels_posts w =
      mapGet (rows.foldl trainRow c).words_posts w := by
  induction rows generalizing c with
  | nil => exact hb
  | cons r rs ih =>
    exact ih _ (wf_trainRow c r h) (balanced_trainFields (getlines ',' r) 0 [] c h hb)

theorem balanced_train (file : Str) :
    ∀ w, pairSum (train file Classifier.init).words_labels_posts w =
      mapGet (train file Classifier.init).words_posts w := by
  apply balanced_trainRows _ _ (wf_colsLoop _ _ _ wf_init)
  intro w
  rw [(colsLoop_frame _ _ _).2.2.1, (colsLoop_frame _ _ _).2.2.2.2.1]
  rfl

theorem mapGet_entry {K : Type} [DecidableEq K] (m : List (K × Nat))
    (hn : (m.map Prod.fst).Nodup) (e : K × Nat) (he : e ∈ m) : mapGet m e.1 = e.2 := by
  induction m with
  | nil => simp at he
  | cons e0 rest ih =>
    obtain ⟨k0, v0⟩ := e0
    simp only [List.map_cons, List.nodup_cons] at hn
    simp only [List.mem_cons] at he
    rcases he with he | he
    · subst he; simp [mapGet]
    · have hne : e.1 ≠ k0 := by
        intro x
        exact hn.1 (x ▸ List.mem_map_of_mem Prod.fst he)
      simp [mapGet, hne, ih hn.2 he]

theorem sum_labels_eq_pairSum (m : List ((Str × Str) × Nat))
    (hn : (m.map Prod.fst).Nodup) (w : Str) :
    (∑ l ∈ (m.map (fun e => e.1.1)).toFinset, mapGet m (l, w)) = pairSum m w := by
  have hsub : ((m.filter (fun e => decide (e.1.2 = w))).map (fun e => e.1.1)).toFinset ⊆
      (m.map (fun e => e.1.1)).toFinset := by
    intro l hl
    simp only [List.mem_toFinset, List.mem_map, List.mem_filter] at hl ⊢
    obtain ⟨e, ⟨he, _⟩, h⟩ := hl
    exact ⟨e, he, h⟩
  have hkey : ∀ e ∈ m.filter (fun e => decide (e.1.2 = w)), e.1 = (e.1.1, w) := by
    intro e he
    have := (List.mem_filter.1 he).2
    simp only [decide_eq_true_eq] at this
    exact Prod.ext rfl this
  have hnd : ((m.filter (fun e => decide (e.1.2 = w))).map (fun e => e.1.1)).Nodup := by
    have h1 : ((m.filter (fun e => decide (e.1.2 = w))).map Prod.fst).Nodup :=
      (hn.sublist ((List.filter_sublist _).map Prod.fst))
    have h2 : (m.filter (fun e => decide (e.1.2 = w))).map Prod.fst =
        ((m.filter (fun e => decide (e.1.2 = w))).map (fun e => e.1.1)).map
          (fun l => (l, w)) := by
      rw [List.map_map]
      apply List.map_congr_left
      intro e he
      exact hkey e he
    rw [h2] at h1
    exact List.Nodup.of_map _ h1
  rw [← Finset.sum_subset hsub, List.sum_toFinset _ hnd, List.map_map]
  · unfold pairSum
    congr 1
    apply List.map_congr_left
    intro e he
    show mapGet m (e.1.1, w) = e.2
    rw [← hkey e he]
    exact mapGet_entry m hn e (List.mem_filter.1 he).1
  · intro l _ hl
    apply mapGet_of_not_mem
    intro hmem
    apply hl
    obtain ⟨e, he, h⟩ := List.mem_map.1 hmem
    simp only [List.mem_toFinset, List.mem_map, List.mem_filter]
    refine ⟨e, ⟨he, ?_⟩, ?_⟩
    · rw [h]; simp
    · rw [h]

/-- Claim C20: after training on any file, for every word `w` the sum of
`words_labels_posts[(l, w)]` over all the labels `l` that occur in a key of
`words_labels_posts`, the empty label included, and over any further labels
`S`, equals `words_posts[w]`. -/
theorem train_pair_sum (file w : Str) (S : Finset Str) :
    (∑ l ∈ ((train file Classifier.init).words_labels_posts.map
        (fun e => e.1.1)).toFinset ∪ S,
      mapGet (train file Classifier.init).words_labels_posts (l, w)) =
      mapGet (train file Classifier.init).words_posts w := by
  rw [← balanced_train file w, ← sum_labels_eq_pairSum _
    (ascending_nodup pairLt_strictTotal _ (wf_train file _ wf_init).pairs_asc) w]
  symm
  apply Finset.sum_subset Finset.subset_union_left
  intro l _ hl
  apply mapGet_of_not_mem
  intro hmem
  apply hl
  obtain ⟨e, he, h⟩ := List.mem_map.1 hmem
  simp only [List.mem_toFinset, List.mem_map]
  exact ⟨e, he, by rw [h]⟩

/-! ## Training: the label counts -/

theorem labelSum_mapIncr (m : List (Str × Nat)) (k : Str) :
    labelSum (mapIncr strLt m k) = labelSum m + 1 := by
  unfold mapIncr labelSum
  induction m with
  | nil => simp [mapUpd]
  | cons e rest ih =>
    obtain ⟨k0, v0⟩ := e
    by_cases h1 : k = k0
    · subst h1
      simp [mapUpd]; omega
    · by_cases h2 : strLt k k0 = true
      · simp [mapUpd, h1, h2]; omega
      · have hu : mapUpd strLt (· + 1) ((k0, v0) :: rest) k =
            (k0, v0) :: mapUpd strLt (· + 1) rest k := by simp [mapUpd, h1, h2]
        rw [hu]
        simp only [List.map_cons, List.sum_cons]
        rw [ih]; omega

theorem trainFields_labels (fields : List Str) (count : Nat) (label : Str) (c : Classifier)
    (h : Wf c) :
    (∀ l, mapGet (trainFields fields count label c).labels_posts l =
      mapGet c.labels_posts l +
        if fieldFrom fields count c.label_col = some l then 1 else 0) ∧
    labelSum (trainFields fields count label c).labels_posts =
      labelSum c.labels_posts +
        if (fieldFrom fields count c.label_col).isSome = true then 1 else 0 := by
  induction fields generalizing count label c with
  | nil => simp [trainFields, fieldFrom_nil]
  | cons line rest ih =>
    have step : ∀ (lab : Str) (c1 : Classifier), Wf c1 → c1.label_col = c.label_col →
        ∃ c2 : Classifier,
          c2 = (if (count : Int) = c1.content_col
            then (unique_words line).foldl (trainWord lab) c1
            else c1) ∧
          Wf c2 ∧ c2.label_col = c.label_col ∧ c2.labels_posts = c1.labels_posts := by
      intro lab c1 hw hc
      refine ⟨_, rfl, ?_, ?_, ?_⟩
      · split_ifs
        · exact wf_trainWords _ _ _ hw
        · exact hw
      · split_ifs
        · rw [(trainWords_frame _ _ _).2.1]; exact hc
        · exact hc
      · split_ifs
        · rw [(trainWords_frame _ _ _).2.2.2.1]
        · rfl
    simp only [trainFields]
    by_cases hl : (count : Int) = c.label_col
    · obtain ⟨c2, hc2, hw2, hcol2, hlab2⟩ :=
        step line { c with labels_posts := mapIncr strLt c.labels_posts line }
          (wf_incrLabel c line h) rfl
      have hd : decide ((count : Int) = c.label_col) = true := decide_eq_true hl
      simp only [hd, if_true]
      rw [← hc2]
      obtain ⟨i1, i2⟩ := ih (count + 1) line c2 hw2
      rw [hcol2, fieldFrom_succ_none rest count _ hl] at i1 i2
      rw [fieldFrom_cons_eq line rest count _ hl]
      constructor
      · intro l
        rw [i1 l, hlab2]
        simp only [reduceCtorEq, if_false, Nat.add_zero]
        rw [mapGet_mapIncr strLt_strictTotal _ _ _ h.labels_asc]
        by_cases e : l = line
        · simp [e]
        · have e' : ¬ line = l := fun x => e x.symm
          simp [e, e']
      · rw [i2, hlab2]
        simp only [Option.isSome_none, Bool.false_eq_true, if_false, Nat.add_zero,
          Option.isSome_some, if_true]
        exact labelSum_mapIncr _ _
    · obtain ⟨c2, hc2, hw2, hcol2, hlab2⟩ := step label c h rfl
      have hd : decide ((count : Int) = c.label_col) = false := decide_eq_false hl
      simp only [hd, Bool.false_eq_true, if_false]
      rw [← hc2]
      obtain ⟨i1, i2⟩ := ih (count + 1) label c2 hw2
      rw [hcol2] at i1 i2
      rw [fieldFrom_cons_ne line rest count _ hl]
      constructor
      · intro l
        rw [i1 l, hlab2]
      · rw [i2, hlab2]

theorem trainFields_without_content (fields : List Str) (count : Nat) (label : Str)
    (c : Classifier) (hf : fieldFrom fields count c.content_col = none) :
    (trainFields fields count label c).words_posts = c.words_posts ∧
    (trainFields fields count label c).words_labels_posts = c.words_labels_posts ∧
    (trainFields fields count label c).vocab_size = c.vocab_size := by
  induction fields generalizing count label c with
  | nil => exact ⟨rfl, rfl, rfl⟩
  | cons line rest ih =>
    have hc : (count : Int) ≠ c.content_col := by
      intro e
      rw [fieldFrom_cons_eq line rest count _ e] at hf
      exact Option.noConfusion hf
    rw [fieldFrom_cons_ne line rest count _ hc] at hf
    simp only [trainFields]
    by_cases hl : (count : Int) = c.label_col
    · have hd : decide ((count : Int) = c.label_col) = true := decide_eq_true hl
      simp only [hd, if_true]
      rw [if_neg hc]
      exact ih (count + 1) line
        { c with labels_posts := mapIncr strLt c.labels_posts line } hf
    · have hd : decide ((count : Int) = c.label_col) = false := decide_eq_false hl
      simp only [hd, Bool.false_eq_true, if_false]
      rw [if_neg hc]
      exact ih (count + 1) label c hf

/-- Claim C13, as amended: for every training data row that has no field in
the content column, `train` increases `total_posts` by 1, increases by 1 the
count of the label in the label column of the row when the row has a field
there and changes no label count otherwise, and leaves `words_posts`,
`words_labels_posts` and `vocab_size` unchanged. -/
theorem trainRow_without_content (c : Classifier) (row : Str) (h : Wf c)
    (hf : fieldAt c.content_col row = none) :
    (trainRow c row).total_posts = c.total_posts + 1 ∧
    (∀ l, mapGet (trainRow c row).labels_posts l =
      mapGet c.labels_posts l + if fieldAt c.label_col row = some l then 1 else 0) ∧
    (trainRow c row).words_posts = c.words_posts ∧
    (trainRow c row).words_labels_posts = c.words_labels_posts ∧
    (trainRow c row).vocab_size = c.vocab_size := by
  rw [fieldAt_eq_fieldFrom] at hf
  obtain ⟨w1, w2, w3⟩ := trainFields_without_content (getlines ',' row) 0 [] c hf
  refine ⟨(trainRow_frame c row).1, ?_, w1, w2, w3⟩
  intro l
  rw [fieldAt_eq_fieldFrom]
  exact (trainFields_labels (getlines ',' row) 0 [] c h).1 l

/-- An instance of claim C13 as amended: the row `sports`, which has no
content field, after training on the scenario file. -/
theorem trainRow_without_content_witness :
    Wf (train scenarioTrain Classifier.init) ∧
    fieldAt (train scenarioTrain Classifier.init).content_col "sports".toList = none ∧
    ((trainRow (train scenarioTrain Classifier.init) "sports".toList).total_posts =
        (train scenarioTrain Classifier.init).total_posts + 1 ∧
      (∀ l, mapGet (trainRow (train scenarioTrain Classifier.init) "sports".toList).labels_posts l
        = mapGet (train scenarioTrain Classifier.init).labels_posts l +
          if fieldAt (train scenarioTrain Classifier.init).label_col "sports".toList = some l
          then 1 else 0) ∧
      (trainRow (train scenarioTrain Classifier.init) "sports".toList).words_posts =
        (train scenarioTrain Classifier.init).words_posts ∧
      (trainRow (train scenarioTrain Classifier.init) "sports".toList).words_labels_posts =
        (train scenarioTrain Classifier.init).words_labels_posts ∧
      (trainRow (train scenarioTrain Classifier.init) "sports".toList).vocab_size =
        (train scenarioTrain Classifier.init).vocab_size) :=
  ⟨wf_train _ _ wf_init, by decide,
    trainRow_without_content (train scenarioTrain Classifier.init) "sports".toList
      (wf_train _ _ wf_init) (by decide)⟩

/-- Claim C13 fails as stated for an empty row: training on a file whose
only data row is empty gives `total_posts = 1` and leaves `labels_posts`
empty, so that no label count has increased. -/
theorem train_empty_row :
    dataRows emptyRowTrain = [[]] ∧
    fieldAt (contentCol emptyRowTrain) [] = none ∧
    (train emptyRowTrain Classifier.init).total_posts = 1 ∧
    (train emptyRowTrain Classifier.init).labels_posts = [] ∧
    labelSum (train emptyRowTrain Classifier.init).labels_posts =
      labelSum Classifier.init.labels_posts := by
  decide

/-! ## Training: bounds on the counts -/

theorem le_labelSum (m : List (Str × Nat)) (e : Str × Nat) (he : e ∈ m) : e.2 ≤ labelSum m := by
  unfold labelSum
  induction m with
  | nil => simp at he
  | cons x xs ih =>
    simp only [List.mem_cons] at he
    simp only [List.map_cons, List.sum_cons]
    rcases he with he | he
    · rw [he]; omega
    · have := ih he; omega

theorem train_total (file : Str) :
    (train file Classifier.init).total_posts = (dataRows file).length := by
  unfold train
  simp only []
  rw [(trainRows_frame _ _).1, getlines_readHeader]
  unfold get_cols
  rw [(colsLoop_frame _ _ _).1]
  simp [Classifier.init]

theorem bounded_trainRow (c : Classifier) (row : Str) (h : Wf c)
    (hb : labelSum c.labels_posts ≤ c.total_posts ∧
      ∀ w, mapGet c.words_posts w ≤ c.total_posts) :
    labelSum (trainRow c row).labels_posts ≤ (trainRow c row).total_posts ∧
      ∀ w, mapGet (trainRow c row).words_posts w ≤ (trainRow c row).total_posts := by
  have h1 := (trainFields_labels (getlines ',' row) 0 [] c h).2
  constructor
  · rw [(trainRow_frame c row).1]
    show labelSum (trainFields (getlines ',' row) 0 [] c).labels_posts ≤ c.total_posts + 1
    rw [h1]
    have := hb.1
    split_ifs <;> omega
  · intro w
    rw [(trainRow_frame c row).1, trainRow_get w c row h]
    have := hb.2 w
    split_ifs <;> omega

theorem bounded_trainRows (rows : List Str) (c : Classifier) (h : Wf c)
    (hb : labelSum c.labels_posts ≤ c.total_posts ∧
      ∀ w, mapGet c.words_posts w ≤ c.total_posts) :
    labelSum (rows.foldl trainRow c).labels_posts ≤ (rows.foldl trainRow c).total_posts ∧
      ∀ w, mapGet (rows.foldl trainRow c).words_posts w ≤
        (rows.foldl trainRow c).total_posts := by
  induction rows generalizing c with
  | nil => exact hb
  | cons r rs ih => exact ih _ (wf_trainRow c r h) (bounded_trainRow c r h hb)

theorem bounded_train (file : Str) :
    labelSum (train file Classifier.init).labels_posts ≤
        (train file Classifier.init).total_posts ∧
      ∀ w, mapGet (train file Classifier.init).words_posts w ≤
        (train file Classifier.init).total_posts := by
  apply bounded_trainRows _ _ (wf_colsLoop _ _ _ wf_init)
  rw [(colsLoop_frame _ _ _).1, (colsLoop_frame _ _ _).2.2.1, (colsLoop_frame _ _ _).2.2.2.1]
  exact ⟨Nat.le_refl _, fun w => Nat.le_refl _⟩

/-- Claim C19, as amended: after training on any file, every label present
in `labels_posts` has a count between 1 and `total_posts`, the sum of the
label counts is at most `total_posts`, and every word count is at most
`total_posts`; hence the log-prior of a label present and the second branch
of the log-likelihood are logarithms of a quotient of a count `n` by
`total_posts` with `0 < n ≤ total_posts`, and the first branch is the
logarithm of `1 / total_posts`, where `1 ≤ total_posts` exactly when the
file has a data row. -/
theorem train_count_bounds {F : Type} (A : Arith F) (file : Str) :
    (∀ e ∈ (train file Classifier.init).labels_posts,
      1 ≤ e.2 ∧ e.2 ≤ (train file Classifier.init).total_posts) ∧
    labelSum (train file Classifier.init).labels_posts ≤
      (train file Classifier.init).total_posts ∧
    (∀ w, mapGet (train file Classifier.init).words_posts w ≤
      (train file Classifier.init).total_posts) ∧
    (∀ l ∈ (train file Classifier.init).labels_posts.map Prod.fst,
      (calc_log_prior A l (train file Classifier.init)).1 =
        A.log (A.div (A.ofCount (mapGet (train file Classifier.init).labels_posts l))
          (A.ofCount (train file Classifier.init).total_posts)) ∧
      0 < mapGet (train file Classifier.init).labels_posts l ∧
      mapGet (train file Classifier.init).labels_posts l ≤
        (train file Classifier.init).total_posts) ∧
    (∀ l w, mapGet (train file Classifier.init).words_posts w ≠ 0 →
      mapGet (train file Classifier.init).words_labels_posts (l, w) = 0 →
      (calc_log_likelihood A l w (train file Classifier.init)).1 =
        A.log (A.div (A.ofCount (mapGet (train file Classifier.init).words_posts w))
          (A.ofCount (train file Classifier.init).total_posts)) ∧
      0 < mapGet (train file Classifier.init).words_posts w ∧
      mapGet (train file Classifier.init).words_posts w ≤
        (train file Classifier.init).total_posts) ∧
    (∀ l w, mapGet (train file Classifier.init).words_posts w = 0 →
      (calc_log_likelihood A l w (train file Classifier.init)).1 =
        A.log (A.div (A.ofCount 1) (A.ofCount (train file Classifier.init).total_posts))) ∧
    (1 ≤ (train file Classifier.init).total_posts ↔ dataRows file ≠ []) := by
  have hw := wf_train file Classifier.init wf_init
  obtain ⟨b1, b2⟩ := bounded_train file
  refine ⟨?_, b1, b2, ?_, ?_, ?_, ?_⟩
  · intro e he
    exact ⟨hw.labels_pos e he, Nat.le_trans (le_labelSum _ e he) b1⟩
  · intro l hl
    obtain ⟨e, he, _, h2⟩ := mapGet_of_mem _ _ hl
    refine ⟨rfl, ?_, ?_⟩
    · rw [h2]; exact hw.labels_pos e he
    · rw [h2]; exact Nat.le_trans (le_labelSum _ e he) b1
  · intro l w h1 h2
    refine ⟨?_, Nat.pos_of_ne_zero h1, b2 w⟩
    unfold calc_log_likelihood
    simp only [h1, h2, if_false, if_true]
  · intro l w h1
    unfold calc_log_likelihood
    simp only [h1, if_true]
  · rw [train_total]
    cases dataRows file with
    | nil => simp
    | cons r rs => simp

/-- Claim C19 fails as stated for a training file without data rows:
`total_posts` is 0, so that the first branch of the log-likelihood is the
logarithm of `1 / 0`, which is not a quotient in (0, 1]. -/
theorem train_header_only :
    dataRows headerOnlyTrain = [] ∧
    (train headerOnlyTrain Classifier.init).total_posts = 0 ∧
    mapGet (train headerOnlyTrain Classifier.init).words_posts "go".toList = 0 ∧
    (calc_log_likelihood exactArith "sports".toList "go".toList
      (train headerOnlyTrain Classifier.init)).1 =
      exactArith.log (exactArith.div (exactArith.ofCount 1) (exactArith.ofCount 0)) ∧
    exactArith.div (exactArith.ofCount 1) (exactArith.ofCount 0) = Exact.posInf := by
  decide

/-! ## Prediction: the statistics are only read -/

theorem sameLookups_of_reads {c c' : Classifier} (h : Reads c c') : SameLookups c c' :=
  ⟨h.total, h.vocab, fun l => by rw [h.labels], h.words, h.pairs⟩

theorem calc_log_prior_lookups {F : Type} (A : Arith F) (label : Str) (c : Classifier)
    (h : Sorted c) : SameLookups c (calc_log_prior A label c).2 :=
  ⟨rfl, rfl, fun l => mapGet_mapTouch strLt_strictTotal c.labels_posts label l h.labels_asc,
    fun _ => rfl, fun _ => rfl⟩

theorem calc_log_likelihood_lookups {F : Type} (A : Arith F) (label word : Str)
    (c : Classifier) (h : Sorted c) : SameLookups c (calc_log_likelihood A label word c).2 := by
  have hl := fun l => mapGet_mapTouch strLt_strictTotal c.labels_posts label l h.labels_asc
  have hw := fun w => mapGet_mapTouch strLt_strictTotal c.words_posts word w h.words_asc
  have hp := fun p =>
    mapGet_mapTouch pairLt_strictTotal c.words_labels_posts (label, word) p h.pairs_asc
  unfold calc_log_likelihood
  simp only []
  split_ifs
  · exact ⟨rfl, rfl, fun _ => rfl, hw, fun _ => rfl⟩
  · exact ⟨rfl, rfl, fun _ => rfl, hw, hp⟩
  · exact ⟨rfl, rfl, hl, hw, hp⟩

theorem predict_state {F : Type} (A : Arith F) (test : Str) (c : Classifier) :
    (predict A test c).2 = (predictRows A (dataRows test) (afterHeader test c)).2 := by
  unfold predict afterHeader
  simp only []
  rw [getlines_readHeader]

theorem predict_lookups {F : Type} (A : Arith F) (test : Str) (c : Classifier)
    (h : Sorted c) :
    SameLookups c (predict A test c).2 ∧ (predict A test c).2.labels_posts = c.labels_posts := by
  have f := colsLoop_frame (getlines ',' (readHeader test).1) 0 c
  have hr := predictRows_reads A (dataRows test) (afterHeader test c)
    (sorted_afterHeader test c h)
  have hs := sameLookups_of_reads hr
  rw [predict_state]
  have e : ∀ (x : Classifier), x = afterHeader test c →
      x.total_posts = c.total_posts ∧ x.vocab_size = c.vocab_size ∧
      x.words_posts = c.words_posts ∧ x.labels_posts = c.labels_posts ∧
      x.words_labels_posts = c.words_labels_posts := by
    intro x hx
    rw [hx]
    exact ⟨f.1, f.2.1, f.2.2.1, f.2.2.2.1, f.2.2.2.2.1⟩
  obtain ⟨e1, e2, e3, e4, e5⟩ := e _ rfl
  refine ⟨⟨hs.total.trans e1, hs.vocab.trans e2, fun l => by rw [hs.labels l, e4],
    fun w => by rw [hs.words w, e3], fun p => by rw [hs.pairs p, e5]⟩, ?_⟩
  rw [hr.labels, e4]

/-- Claim C16, as amended: for every classifier whose maps are in key order,
as after training, evaluating `calc_log_prior`, `calc_log_likelihood` or a
whole prediction pass leaves `total_posts`, `vocab_size` and the value of
every lookup in the three maps as they were; the entries of `labels_posts`,
hence the labels enumerated, are left as they were by a whole prediction
pass, and by `calc_log_prior` and `calc_log_likelihood` for a label that is
present in `labels_posts`. -/
theorem statistics_read_only {F : Type} (A : Arith F) (c : Classifier) (h : Sorted c) :
    (∀ label, SameLookups c (calc_log_prior A label c).2) ∧
    (∀ label word, SameLookups c (calc_log_likelihood A label word c).2) ∧
    (∀ test, SameLookups c (predict A test c).2 ∧
      (predict A test c).2.labels_posts = c.labels_posts) ∧
    (∀ label ∈ c.labels_posts.map Prod.fst,
      (calc_log_prior A label c).2.labels_posts = c.labels_posts ∧
      ∀ word, (calc_log_likelihood A label word c).2.labels_posts = c.labels_posts) :=
  ⟨fun label => calc_log_prior_lookups A label c h,
    fun label word => calc_log_likelihood_lookups A label word c h,
    fun test => predict_lookups A test c h,
    fun label hl => ⟨(calc_log_prior_reads A label c h hl).1.labels,
      fun word => (calc_log_likelihood_reads A label word c h hl).1.labels⟩⟩

/-- An instance of claim C16 as amended: the classifier trained on the
scenario file, with exact arithmetic. -/
theorem statistics_read_only_witness :
    Sorted (train scenarioTrain Classifier.init) ∧
    ((∀ label, SameLookups (train scenarioTrain Classifier.init)
        (calc_log_prior exactArith label (train scenarioTrain Classifier.init)).2) ∧
    (∀ label word, SameLookups (train scenarioTrain Classifier.init)
        (calc_log_likelihood exactArith label word (train scenarioTrain Classifier.init)).2) ∧
    (∀ test, SameLookups (train scenarioTrain Classifier.init)
        (predict exactArith test (train scenarioTrain Classifier.init)).2 ∧
      (predict exactArith test (train scenarioTrain Classifier.init)).2.labels_posts =
        (train scenarioTrain Classifier.init).labels_posts) ∧
    (∀ label ∈ (train scenarioTrain Classifier.init).labels_posts.map Prod.fst,
      (calc_log_prior exactArith label (train scenarioTrain Classifier.init)).2.labels_posts =
        (train scenarioTrain Classifier.init).labels_posts ∧
      ∀ word, (calc_log_likelihood exactArith label word
        (train scenarioTrain Classifier.init)).2.labels_posts =
        (train scenarioTrain Classifier.init).labels_posts)) :=
  ⟨sorted_of_wf (wf_train _ _ wf_init),
    statistics_read_only exactArith (train scenarioTrain Classifier.init)
      (sorted_of_wf (wf_train _ _ wf_init))⟩

/-- Claim C16 fails as stated for a label that is absent: after training on
the scenario file, evaluating `calc_log_prior` for the label zzz adds that
label to `labels_posts`, so that three labels are enumerated instead of
two. -/
theorem calc_log_prior_inserts :
    (train scenarioTrain Classifier.init).labels_posts.map Prod.fst =
      ["news".toList, "sports".toList] ∧
    (calc_log_prior exactArith "zzz".toList
      (train scenarioTrain Classifier.init)).2.labels_posts.map Prod.fst =
      ["news".toList, "sports".toList, "zzz".toList] := by
  decide

/-! ## Prediction: records without words -/

theorem pick_fixed {F : Type} (gt : F → F → Bool) (ls : List (Str × F)) (best : F × Str)
    (h : ∀ e ∈ ls, gt e.2 best.1 = false) : pick gt ls best = best := by
  induction ls with
  | nil => rfl
  | cons x rest ih =>
    obtain ⟨l, s⟩ := x
    have h1 : gt s best.1 = false := h (l, s) (List.mem_cons_self _ _)
    simp only [pick, h1, Bool.false_eq_true, if_false]
    exact ih (fun e he => h e (List.mem_cons_of_mem _ he))

theorem labelScores_without_words {F : Type} (A : Arith F) (c : Classifier) (content : Str)
    (hw : unique_words content = [])
    (hadd : ∀ e ∈ labelPriors A c, A.add (A.ofCount 0) e.2 = e.2) :
    labelScores A c content = labelPriors A c := by
  unfold labelScores labelPriors
  apply List.map_congr_left
  intro e he
  have hmem : (e.1, (calc_log_prior A e.1 c).1) ∈ labelPriors A c := by
    unfold labelPriors
    exact List.mem_map.2 ⟨e, he, rfl⟩
  rw [hw]
  show (e.1, A.add (A.ofCount 0) (calc_log_prior A e.1 c).1) = (e.1, (calc_log_prior A e.1 c).1)
  rw [hadd _ hmem]

/-- Claim C11: for a classifier whose maps are in key order, as after
training, and a test record whose field in the content column holds no word,
`predict` emits a label with its log-prior as score, every label before it
in `labels_posts` having a strictly smaller log-prior and no label after it
a greater one: the first label with the maximal log-prior.  The arithmetic
is assumed to add `0` to a log-prior without changing it and to order the
log-priors and `lowest()`, some log-prior being above `lowest()`. -/
theorem empty_content_law {F : Type} (A : Arith F) (c : Classifier) (row content : Str)
    (hs : Sorted c) (hf : fieldAt c.content_col row = some content)
    (hw : unique_words content = [])
    (hadd : ∀ e ∈ labelPriors A c, A.add (A.ofCount 0) e.2 = e.2)
    (ho : WeakOrderOn A.gt (A.lowest :: (labelPriors A c).map Prod.snd))
    (hirr : ∀ e ∈ labelPriors A c, A.gt e.2 e.2 = false)
    (hex : ∃ e ∈ labelPriors A c, A.gt e.2 A.lowest = true) :
    ∃ pre post,
      labelPriors A c =
        pre ++ ((predictRow A c row).1.predicted, (predictRow A c row).1.score) :: post ∧
      (∀ e ∈ pre, A.gt (predictRow A c row).1.score e.2 = true) ∧
      (∀ e ∈ post, A.gt e.2 (predictRow A c row).1.score = false) := by
  have hL := labelScores_without_words A c content hw hadd
  -- the result of the loop over the labels in `find_probability`
  obtain ⟨pre, post, h2, h4, h5⟩ : ∃ pre post,
      labelPriors A c = pre ++ ((pick A.gt (labelPriors A c) (A.lowest, c.prediction)).2,
        (pick A.gt (labelPriors A c) (A.lowest, c.prediction)).1) :: post ∧
      (∀ e ∈ pre, A.gt (pick A.gt (labelPriors A c) (A.lowest, c.prediction)).1 e.2 = true) ∧
      (∀ e ∈ post,
        A.gt e.2 (pick A.gt (labelPriors A c) (A.lowest, c.prediction)).1 = false) := by
    rcases pick_spec A.gt (labelPriors A c) (A.lowest, c.prediction) ho with
      ⟨_, h3⟩ | ⟨pre, post, h2, _, h4, h5⟩
    · obtain ⟨e, he, hg⟩ := hex
      rw [h3 e he] at hg
      exact Bool.noConfusion hg
    · exact ⟨pre, post, h2, h4, h5⟩
  have hres : ((predictRow A c row).1.score, (predictRow A c row).1.predicted) =
      pick A.gt (labelPriors A c) (A.lowest, c.prediction) := by
    by_cases hn : (getlines ',' row).length = 1
    · obtain ⟨h1, _⟩ := (predictRow_single A c row hs hn).1 content hf
      rw [hL] at h1
      rw [h1]
      apply pick_fixed
      -- the special case finds no log-prior greater than the maximum
      have hbest : ((pick A.gt (labelPriors A c) (A.lowest, c.prediction)).2,
          (pick A.gt (labelPriors A c) (A.lowest, c.prediction)).1) ∈ labelPriors A c := by
        have : ((pick A.gt (labelPriors A c) (A.lowest, c.prediction)).2,
            (pick A.gt (labelPriors A c) (A.lowest, c.prediction)).1) ∈
            pre ++ ((pick A.gt (labelPriors A c) (A.lowest, c.prediction)).2,
              (pick A.gt (labelPriors A c) (A.lowest, c.prediction)).1) :: post := by
          exact List.mem_append_right _ (List.mem_cons_self _ _)
        rw [← h2] at this
        exact this
      have hval : ∀ e ∈ labelPriors A c,
          e.2 ∈ A.lowest :: (labelPriors A c).map Prod.snd :=
        fun e he => List.mem_cons_of_mem _ (List.mem_map_of_mem Prod.snd he)
      intro e he
      have he' := he
      rw [h2, List.mem_append, List.mem_cons] at he'
      rcases he' with hp | hp | hp
      · by_contra hc
        have hc' : A.gt e.2 (pick A.gt (labelPriors A c) (A.lowest, c.prediction)).1 = true := by
          simpa using hc
        have := ho.trans _ (hval _ hbest) _ (hval e he) _ (hval _ hbest) (h4 e hp) hc'
        rw [hirr _ hbest] at this
        exact Bool.noConfusion this
      · rw [hp]
        exact hirr _ hbest
      · exact h5 e hp
    · obtain ⟨h1, _⟩ := (predictRow_many A c row hs hn).1 content hf
      rw [hL] at h1
      exact h1
  have e1 : (predictRow A c row).1.score =
      (pick A.gt (labelPriors A c) (A.lowest, c.prediction)).1 := by rw [← hres]
  have e2 : (predictRow A c row).1.predicted =
      (pick A.gt (labelPriors A c) (A.lowest, c.prediction)).2 := by rw [← hres]
  exact ⟨pre, post, by rw [e1, e2]; exact h2, by rw [e1]; exact h4, by rw [e1]; exact h5⟩

/-- An instance of claim C11: the record `news,,x`, whose content field is
empty, after training on the scenario file, with exact arithmetic. -/
theorem empty_content_law_witness :
    fieldAt (train scenarioTrain Classifier.init).content_col "news,,x".toList = some [] ∧
    (predictRow exactArith (train scenarioTrain Classifier.init) "news,,x".toList).1.predicted =
      "news".toList ∧
    (predictRow exactArith (train scenarioTrain Classifier.init) "news,,x".toList).1.score =
      Exact.ln 1 2 ∧
    ∃ pre post,
      labelPriors exactArith (train scenarioTrain Classifier.init) =
        pre ++ ((predictRow exactArith (train scenarioTrain Classifier.init)
            "news,,x".toList).1.predicted,
          (predictRow exactArith (train scenarioTrain Classifier.init)
            "news,,x".toList).1.score) :: post ∧
      (∀ e ∈ pre, exactArith.gt (predictRow exactArith (train scenarioTrain Classifier.init)
        "news,,x".toList).1.score e.2 = true) ∧
      (∀ e ∈ post, exactArith.gt e.2 (predictRow exactArith
        (train scenarioTrain Classifier.init) "news,,x".toList).1.score = false) :=
  ⟨by decide, by decide, by decide,
    empty_content_law exactArith (train scenarioTrain Classifier.init) "news,,x".toList []
      (sorted_of_wf (wf_train _ _ wf_init)) (by decide) (by decide) (by decide)
      ⟨by decide, by decide⟩ (by decide)
      ⟨("news".toList, Exact.ln 1 2), by decide, by decide⟩⟩

/-! ## Prediction: records without fields -/

/-- Claim C12, at a failing input: after training on the scenario file, whose
labels news and sports both have the log-prior `log(1/2)`, the records of
`noContentTest` have no field in the content column.  The record `sports`,
of one field, is given the label news with the score `log(1/2)` by the
special case; the empty line, of no field, and the record `sports,1`, of two
fields, are not: `predict` emits for them the label left by the records
before, here the empty label, with the score `lowest()`. -/
theorem predict_without_content :
    (dataRows noContentTest).map (fieldAt
      (afterHeader noContentTest (train scenarioTrain Classifier.init)).content_col) =
      [none, none, none] ∧
    labelPriors exactArith (train scenarioTrain Classifier.init) =
      [("news".toList, Exact.ln 1 2), ("sports".toList, Exact.ln 1 2)] ∧
    (predict exactArith noContentTest (train scenarioTrain Classifier.init)).1.records.map
        (fun e => (e.predicted, e.score)) =
      [([], Exact.lowest), ([], Exact.lowest), ("news".toList, Exact.ln 1 2)] := by
  decide

/-- Claim C15, at a failing input: the test files `staleTestA` and
`staleTestB` differ only in their first record, and their second record, an
empty line, is emitted with the label sports in the one and with the label
news in the other: the label predicted for the record before. -/
theorem predict_stale_prediction :
    (dataRows staleTestA).drop 1 = (dataRows staleTestB).drop 1 ∧
    (readHeader staleTestA).1 = (readHeader staleTestB).1 ∧
    ((predict exactArith staleTestA (train scenarioTrain Classifier.init)).1.records.drop 1).map
        (fun e => (e.correct, e.predicted, e.score)) =
      [(none, "sports".toList, Exact.lowest)] ∧
    ((predict exactArith staleTestB (train scenarioTrain Classifier.init)).1.records.drop 1).map
        (fun e => (e.correct, e.predicted, e.score)) =
      [(none, "news".toList, Exact.lowest)] := by
  decide

theorem predictRows_length {F : Type} (A : Arith F) (rows : List Str) (c : Classifier) :
    (predictRows A rows c).1.length = rows.length := by
  induction rows generalizing c with
  | nil => rfl
  | cons r rs ih => simp [predictRows, ih]

theorem predict_tally {F : Type} (A : Arith F) (test : Str) (c : Classifier) :
    (predict A test c).1.total = (dataRows test).length ∧
    (predict A test c).1.correct =
      ((predict A test c).1.records.filter (fun e => e.hit)).length ∧
    (predict A test c).1.correct ≤ (predict A test c).1.total := by
  refine ⟨?_, rfl, List.length_filter_le _ _⟩
  show (predict A test c).1.records.length = (dataRows test).length
  rw [predict_records, predictRows_length]

/-- Claim C18, at a failing input: for the test file `staleTestA`, of two
data rows, the tally is 2 correct out of 2, while one row only has a field
in the tag column equal to the label predicted for it; the empty line is
counted as correct because the label kept from the row before equals the
prediction kept from the row before. -/
theorem predict_tally_stale :
    (predict exactArith staleTestA (train scenarioTrain Classifier.init)).1.total = 2 ∧
    (predict exactArith staleTestA (train scenarioTrain Classifier.init)).1.correct = 2 ∧
    (dataRows staleTestA).length = 2 ∧
    (((dataRows staleTestA).zip
        (predict exactArith staleTestA (train scenarioTrain Classifier.init)).1.records).filter
      (fun p => decide (fieldAt
        (afterHeader staleTestA (train scenarioTrain Classifier.init)).label_col p.1 =
          some p.2.predicted))).length = 1 := by
  decide

end NaiveBayes
